import Mathlib

/-!
# Verification of the Sudoku solver (`Sudoku(Question4-5).py`)

Shallow embedding of the repository's single source file: the Norvig-style
exact solver (constraint propagation + depth-first search) and the local
search engines (hill climbing and simulated annealing) added for questions
4 and 5.

Conventions of the embedding:
* Python strings that denote square names (e.g. `'A3'`) become `String`.
* Python strings that denote digit collections (e.g. the domain `'1239'`)
  become `List Char`, preserving order, since Python strings are ordered.
* The mutable dict `values : {square: digits}` becomes a total function
  `Store := String → List Char`, threaded explicitly through the
  propagation functions.
* Python's `return False` convention for contradictions becomes a `Bool`
  success flag carried next to the (possibly partially mutated) store,
  matching the fact that the Python dict stays mutated when `False` is
  returned.
* The recursion of `eliminate`/`assign` is embedded with an explicit fuel
  parameter (`propagate`); `none` means the fuel ran out.  A fuel bound
  depending on the total size of all domains is proved sufficient, which
  is exactly the termination argument of the source.
-/

namespace Sudoku

/-- `cross(A, B)`: cross product of elements in A and elements in B
(source line 16).  Python concatenates one-character strings; here the
two characters are packed into a two-character `String`. -/
def cross (A B : List Char) : List String :=
  A.flatMap (fun a => B.map (fun b => String.mk [a, b]))

/-- `digits = '123456789'` (source line 21). -/
def digits : List Char := ['1', '2', '3', '4', '5', '6', '7', '8', '9']

/-- `rows = 'ABCDEFGHI'` (source line 22). -/
def rows : List Char := ['A', 'B', 'C', 'D', 'E', 'F', 'G', 'H', 'I']

/-- `cols = digits` (source line 23). -/
def cols : List Char := digits

/-- `squares = cross(rows, cols)` (source line 24). -/
def squares : List String := cross rows cols

/-- `[cross(rows, c) for c in cols]`: the nine column units. -/
def colUnits : List (List String) := cols.map (fun c => cross rows [c])

/-- `[cross(r, cols) for r in rows]`: the nine row units. -/
def rowUnits : List (List String) := rows.map (fun r => cross [r] cols)

/-- `[cross(rs, cs) for rs in ('ABC','DEF','GHI') for cs in ('123','456','789')]`:
the nine box units. -/
def boxUnits : List (List String) :=
  [['A', 'B', 'C'], ['D', 'E', 'F'], ['G', 'H', 'I']].flatMap
    (fun rs => [['1', '2', '3'], ['4', '5', '6'], ['7', '8', '9']].map
      (fun cs => cross rs cs))

/-- `unitlist` (source lines 25-27): columns, then rows, then boxes. -/
def unitlist : List (List String) := colUnits ++ rowUnits ++ boxUnits

/-- `units[s] = [u for u in unitlist if s in u]` (source line 28). -/
def units (s : String) : List (List String) :=
  unitlist.filter (fun u => u.contains s)

/-- `peers[s] = set(sum(units[s], [])) - set([s])` (source line 30).
The Python set is embedded as a duplicate-free list; iteration order of a
Python set is unspecified, so the order chosen here is as good as any. -/
def peers (s : String) : List String :=
  (((units s).flatMap id).filter (fun t => t != s)).dedup

/-- The candidate store: Python's `values` dict, one domain per square. -/
abbrev Store := String → List Char

/-- Total number of candidate digits over all 81 squares; the measure that
strictly decreases with every actual elimination. -/
def totalSize (v : Store) : Nat :=
  (squares.map (fun s => (v s).length)).sum

/-- The call states of the mutually recursive pair `assign`/`eliminate`
(source lines 79-111).  The Python loops with early `return False` are
represented by one constructor per loop:

* `assign s d`  — body of `assign(values, s, d)` (line 79);
* `elimOthers s ds` — `all(eliminate(values, s, d2) for d2 in other_values)`
  inside `assign` (line 83), short-circuiting on the first failure;
* `elim s d` — body of `eliminate(values, s, d)` (line 89);
* `elimPeers d2 ps` — `all(eliminate(values, s2, d2) for s2 in peers[s])`
  of propagation rule (1) (line 100);
* `unitsLoop d us` — the `for u in units[s]` loop of rule (2) (line 103). -/
inductive PCall where
  | assign (s : String) (d : Char)
  | elimOthers (s : String) (ds : List Char)
  | elim (s : String) (d : Char)
  | elimPeers (d2 : Char) (ps : List String)
  | unitsLoop (d : Char) (us : List (List String))

/-- `values[s] = values[s].replace(d, '')` (source line 94): the in-place
removal of a digit from one domain.  `str.replace(d, '')` deletes every
occurrence of the character `d`, i.e. filters it out. -/
def removeVal (v : Store) (s : String) (d : Char) : Store :=
  Function.update v s ((v s).filter (fun c2 => c2 != d))

/-- One fuelled interpreter for the mutually recursive propagation of the
source (lines 79-111).  The result is `none` when the fuel is exhausted,
otherwise `some (w, ok)`: the store after all in-place mutations, and the
Python return value (`ok = false` encodes `return False`). -/
def propagate : Nat → Store → PCall → Option (Store × Bool)
  | 0, _, _ => none
  | f + 1, v, c =>
    match c with
    | .assign s d =>
      -- other_values = values[s].replace(d, '')
      propagate f v (.elimOthers s ((v s).filter (fun c2 => c2 != d)))
    | .elimOthers _ [] => some (v, true)
    | .elimOthers s (d2 :: rest) =>
      match propagate f v (.elim s d2) with
      | none => none
      | some (v', false) => some (v', false)
      | some (v', true) => propagate f v' (.elimOthers s rest)
    | .elim s d =>
      if d ∈ v s then
        if ((removeVal v s d) s).length = 0 then
          some (removeVal v s d, false)  -- contradiction: removed last value
        else
          match
            (if ((removeVal v s d) s).length = 1 then
              -- rule (1): eliminate the single remaining value from the peers
              propagate f (removeVal v s d) (.elimPeers (((removeVal v s d) s).headI) (peers s))
            else some (removeVal v s d, true)) with
          | none => none
          | some (v2, false) => some (v2, false)
          | some (v2, true) =>
            -- rule (2): each unit must keep a place for d
            propagate f v2 (.unitsLoop d (units s))
      else some (v, true)  -- already eliminated
    | .elimPeers _ [] => some (v, true)
    | .elimPeers d2 (p :: ps) =>
      match propagate f v (.elim p d2) with
      | none => none
      | some (v', false) => some (v', false)
      | some (v', true) => propagate f v' (.elimPeers d2 ps)
    | .unitsLoop _ [] => some (v, true)
    | .unitsLoop d (u :: us) =>
      let dplaces := u.filter (fun t => d ∈ v t)
      if dplaces.length = 0 then some (v, false)  -- no place for this value
      else if dplaces.length = 1 then
        match propagate f v (.assign dplaces.headI d) with
        | none => none
        | some (v', false) => some (v', false)
        | some (v', true) => propagate f v' (.unitsLoop d us)
      else propagate f v (.unitsLoop d us)

/-- `eliminate(values, s, d)` at explicit fuel. -/
def eliminateF (f : Nat) (v : Store) (s : String) (d : Char) : Option (Store × Bool) :=
  propagate f v (.elim s d)

/-- `assign(values, s, d)` at explicit fuel. -/
def assignF (f : Nat) (v : Store) (s : String) (d : Char) : Option (Store × Bool) :=
  propagate f v (.assign s d)

/-- Fuel that is sufficient for `eliminate` on any store whose total domain
size is at most `n` (proved in `elim_fuel_sufficient`). -/
def elimFuel : Nat → Nat
  | 0 => 1
  | n + 1 => elimFuel n + (n + 1) + 301

/-- Fuel that is sufficient for `assign` on any store whose total domain
size is at most `n`. -/
def assignFuel (n : Nat) : Nat := elimFuel n + n + 2

/-! ## Unfolding equations of `propagate`, one per source control path -/

theorem propagate_zero (v : Store) (c : PCall) : propagate 0 v c = none := rfl

theorem propagate_assign (f : Nat) (v : Store) (s : String) (d : Char) :
    propagate (f + 1) v (.assign s d) =
      propagate f v (.elimOthers s ((v s).filter (fun c2 => c2 != d))) := rfl

theorem propagate_elimOthers_nil (f : Nat) (v : Store) (s : String) :
    propagate (f + 1) v (.elimOthers s []) = some (v, true) := rfl

theorem propagate_elimOthers_cons (f : Nat) (v : Store) (s : String) (d2 : Char)
    (rest : List Char) :
    propagate (f + 1) v (.elimOthers s (d2 :: rest)) =
      match propagate f v (.elim s d2) with
      | none => none
      | some (v', false) => some (v', false)
      | some (v', true) => propagate f v' (.elimOthers s rest) := rfl

theorem propagate_elim (f : Nat) (v : Store) (s : String) (d : Char) :
    propagate (f + 1) v (.elim s d) =
      if d ∈ v s then
        if ((removeVal v s d) s).length = 0 then some (removeVal v s d, false)
        else
          match
            (if ((removeVal v s d) s).length = 1 then
              propagate f (removeVal v s d) (.elimPeers (((removeVal v s d) s).headI) (peers s))
            else some (removeVal v s d, true)) with
          | none => none
          | some (v2, false) => some (v2, false)
          | some (v2, true) => propagate f v2 (.unitsLoop d (units s))
      else some (v, true) := rfl

theorem propagate_elimPeers_nil (f : Nat) (v : Store) (d2 : Char) :
    propagate (f + 1) v (.elimPeers d2 []) = some (v, true) := rfl

theorem propagate_elimPeers_cons (f : Nat) (v : Store) (d2 : Char) (p : String)
    (ps : List String) :
    propagate (f + 1) v (.elimPeers d2 (p :: ps)) =
      match propagate f v (.elim p d2) with
      | none => none
      | some (v', false) => some (v', false)
      | some (v', true) => propagate f v' (.elimPeers d2 ps) := rfl

theorem propagate_unitsLoop_nil (f : Nat) (v : Store) (d : Char) :
    propagate (f + 1) v (.unitsLoop d []) = some (v, true) := rfl

theorem propagate_unitsLoop_cons (f : Nat) (v : Store) (d : Char) (u : List String)
    (us : List (List String)) :
    propagate (f + 1) v (.unitsLoop d (u :: us)) =
      (if (u.filter (fun t => d ∈ v t)).length = 0 then some (v, false)
      else if (u.filter (fun t => d ∈ v t)).length = 1 then
        match propagate f v (.assign ((u.filter (fun t => d ∈ v t)).headI) d) with
        | none => none
        | some (v', false) => some (v', false)
        | some (v', true) => propagate f v' (.unitsLoop d us)
      else propagate f v (.unitsLoop d us)) := rfl

/-! ## Basic facts about `removeVal` and `totalSize` -/

theorem removeVal_self (v : Store) (s : String) (d : Char) :
    removeVal v s d s = (v s).filter (fun c2 => c2 != d) := by
  simp [removeVal]

theorem removeVal_other (v : Store) {s t : String} (d : Char) (h : t ≠ s) :
    removeVal v s d t = v t := by
  simp [removeVal, Function.update_noteq h]

theorem removeVal_sublist (v : Store) (s : String) (d : Char) (t : String) :
    (removeVal v s d t).Sublist (v t) := by
  by_cases h : t = s
  · subst h; rw [removeVal_self]; exact List.filter_sublist _
  · rw [removeVal_other v d h]

theorem not_mem_removeVal_self (v : Store) (s : String) (d : Char) :
    d ∉ removeVal v s d s := by
  rw [removeVal_self]
  simp [List.mem_filter]

theorem mem_of_mem_removeVal {v : Store} {s t : String} {d x : Char}
    (h : x ∈ removeVal v s d t) : x ∈ v t :=
  (removeVal_sublist v s d t).subset h

theorem totalSize_le_of_sublist {v w : Store} (h : ∀ t, (w t).Sublist (v t)) :
    totalSize w ≤ totalSize v := by
  unfold totalSize
  exact List.sum_le_sum (fun s _ => (h s).length_le)

theorem domain_length_le_totalSize {v : Store} {s : String} (hs : s ∈ squares) :
    (v s).length ≤ totalSize v :=
  List.single_le_sum (fun x _ => Nat.zero_le x) _ (List.mem_map_of_mem _ hs)

theorem totalSize_removeVal_lt {v : Store} {s : String} {d : Char}
    (hs : s ∈ squares) (hd : d ∈ v s) :
    totalSize (removeVal v s d) < totalSize v := by
  unfold totalSize
  apply List.sum_lt_sum
  · intro t _
    exact (removeVal_sublist v s d t).length_le
  · refine ⟨s, hs, ?_⟩
    rw [removeVal_self]
    refine List.length_filter_lt_length_iff_exists.mpr ⟨d, hd, by simp⟩

/-! ## Facts about the topology -/

theorem unitlist_length_nine : ∀ u ∈ unitlist, u.length = 9 := by decide

theorem unitlist_mem_squares : ∀ u ∈ unitlist, ∀ x ∈ u, x ∈ squares := by decide

theorem unitlist_nodup : ∀ u ∈ unitlist, u.Nodup := by decide

theorem squares_nodup : squares.Nodup := by decide

theorem digits_nodup : digits.Nodup := by decide

theorem units_subset_unitlist (s : String) : units s ⊆ unitlist :=
  fun _ hx => List.mem_of_mem_filter hx

theorem units_length_le (s : String) : (units s).length ≤ 27 := by
  have h := List.length_filter_le (fun u => u.contains s) unitlist
  exact h.trans (by norm_num [unitlist, colUnits, rowUnits, boxUnits, cross, rows, cols, digits])

theorem peers_length_le (s : String) : (peers s).length ≤ 243 := by
  unfold peers
  have h1 := (List.dedup_sublist ((((units s).flatMap id).filter (fun t => t != s)))).length_le
  have h2 := List.length_filter_le (fun t => t != s) ((units s).flatMap id)
  have h3 : ((units s).flatMap id).length ≤ 243 := by
    rw [List.length_flatMap]
    have hb : ∀ x ∈ (units s).map (fun u => (id u).length), x ≤ 9 := by
      intro x hx
      obtain ⟨u, hu, rfl⟩ := List.mem_map.mp hx
      exact le_of_eq (unitlist_length_nine u (units_subset_unitlist s hu))
    calc ((units s).map fun u => (id u).length).sum
        ≤ ((units s).map fun u => (id u).length).length * 9 := by
          simpa [smul_eq_mul] using List.sum_le_card_nsmul ((units s).map fun u => (id u).length) 9 hb
      _ = (units s).length * 9 := by rw [List.length_map]
      _ ≤ 27 * 9 := Nat.mul_le_mul_right 9 (units_length_le s)
      _ = 243 := by norm_num
  omega

theorem mem_peers {s p : String} :
    p ∈ peers s ↔ (∃ u ∈ unitlist, s ∈ u ∧ p ∈ u) ∧ p ≠ s := by
  unfold peers units
  simp only [List.mem_dedup, List.mem_filter, List.mem_flatMap, List.mem_filter, id,
    bne_iff_ne, ne_eq]
  constructor
  · rintro ⟨⟨u, ⟨hu, hc⟩, hpu⟩, hne⟩
    exact ⟨⟨u, hu, by simpa using hc, hpu⟩, hne⟩
  · rintro ⟨⟨u, hu, hsu, hpu⟩, hne⟩
    exact ⟨⟨u, ⟨hu, by simpa using hsu⟩, hpu⟩, hne⟩

theorem peers_subset_squares {s p : String} (h : p ∈ peers s) : p ∈ squares := by
  obtain ⟨⟨u, hu, -, hpu⟩, -⟩ := mem_peers.mp h
  exact unitlist_mem_squares u hu p hpu

theorem mem_peers_of_same_unit {u : List String} {s p : String}
    (hu : u ∈ unitlist) (hs : s ∈ u) (hp : p ∈ u) (hne : p ≠ s) : p ∈ peers s :=
  mem_peers.mpr ⟨⟨u, hu, hs, hp⟩, hne⟩

/-! ## Domains only ever shrink under propagation

Whatever `eliminate`/`assign` do — succeed or signal a contradiction — every
domain of the resulting store is a subsequence of the corresponding domain
of the input store. -/

theorem propagate_sublist :
    ∀ (f : Nat) (v : Store) (c : PCall) (w : Store) (b : Bool),
      propagate f v c = some (w, b) → ∀ t, (w t).Sublist (v t) := by
  intro f
  induction f with
  | zero =>
    intro v c w b h
    rw [propagate_zero] at h
    exact Option.noConfusion h
  | succ f ih =>
    intro v c w b h t
    cases c with
    | assign s d =>
      rw [propagate_assign] at h
      exact ih _ _ _ _ h t
    | elimOthers s ds =>
      cases ds with
      | nil =>
        rw [propagate_elimOthers_nil] at h
        obtain ⟨rfl, -⟩ : v = w ∧ true = b := by simpa using h
        exact List.Sublist.refl _
      | cons d2 rest =>
        rw [propagate_elimOthers_cons] at h
        cases hm : propagate f v (.elim s d2) with
        | none => rw [hm] at h; exact Option.noConfusion h
        | some p =>
          obtain ⟨v', b'⟩ := p
          rw [hm] at h
          cases b' with
          | false =>
            obtain ⟨rfl, -⟩ : v' = w ∧ false = b := by simpa using h
            exact ih _ _ _ _ hm t
          | true =>
            change propagate f v' (.elimOthers s rest) = some (w, b) at h
            exact (ih _ _ _ _ h t).trans (ih _ _ _ _ hm t)
    | elim s d =>
      rw [propagate_elim] at h
      by_cases hd : d ∈ v s
      · rw [if_pos hd] at h
        by_cases h0 : ((removeVal v s d) s).length = 0
        · rw [if_pos h0] at h
          obtain ⟨rfl, -⟩ : removeVal v s d = w ∧ false = b := by simpa using h
          exact removeVal_sublist v s d t
        · rw [if_neg h0] at h
          by_cases h1 : ((removeVal v s d) s).length = 1
          · rw [if_pos h1] at h
            cases hp : propagate f (removeVal v s d)
                (.elimPeers (((removeVal v s d) s).headI) (peers s)) with
            | none => rw [hp] at h; exact Option.noConfusion h
            | some p =>
              obtain ⟨v2, b2⟩ := p
              rw [hp] at h
              cases b2 with
              | false =>
                obtain ⟨rfl, -⟩ : v2 = w ∧ false = b := by simpa using h
                exact (ih _ _ _ _ hp t).trans (removeVal_sublist v s d t)
              | true =>
                change propagate f v2 (.unitsLoop d (units s)) = some (w, b) at h
                exact ((ih _ _ _ _ h t).trans (ih _ _ _ _ hp t)).trans
                  (removeVal_sublist v s d t)
          · rw [if_neg h1] at h
            change propagate f (removeVal v s d) (.unitsLoop d (units s)) = some (w, b) at h
            exact (ih _ _ _ _ h t).trans (removeVal_sublist v s d t)
      · rw [if_neg hd] at h
        obtain ⟨rfl, -⟩ : v = w ∧ true = b := by simpa using h
        exact List.Sublist.refl _
    | elimPeers d2 ps =>
      cases ps with
      | nil =>
        rw [propagate_elimPeers_nil] at h
        obtain ⟨rfl, -⟩ : v = w ∧ true = b := by simpa using h
        exact List.Sublist.refl _
      | cons p ps =>
        rw [propagate_elimPeers_cons] at h
        cases hm : propagate f v (.elim p d2) with
        | none => rw [hm] at h; exact Option.noConfusion h
        | some q =>
          obtain ⟨v', b'⟩ := q
          rw [hm] at h
          cases b' with
          | false =>
            obtain ⟨rfl, -⟩ : v' = w ∧ false = b := by simpa using h
            exact ih _ _ _ _ hm t
          | true =>
            change propagate f v' (.elimPeers d2 ps) = some (w, b) at h
            exact (ih _ _ _ _ h t).trans (ih _ _ _ _ hm t)
    | unitsLoop d us =>
      cases us with
      | nil =>
        rw [propagate_unitsLoop_nil] at h
        obtain ⟨rfl, -⟩ : v = w ∧ true = b := by simpa using h
        exact List.Sublist.refl _
      | cons u us =>
        rw [propagate_unitsLoop_cons] at h
        by_cases hz : (u.filter (fun t2 => d ∈ v t2)).length = 0
        · rw [if_pos hz] at h
          obtain ⟨rfl, -⟩ : v = w ∧ false = b := by simpa using h
          exact List.Sublist.refl _
        · rw [if_neg hz] at h
          by_cases h1 : (u.filter (fun t2 => d ∈ v t2)).length = 1
          · rw [if_pos h1] at h
            cases hm : propagate f v (.assign ((u.filter (fun t2 => d ∈ v t2)).headI) d) with
            | none => rw [hm] at h; exact Option.noConfusion h
            | some q =>
              obtain ⟨v', b'⟩ := q
              rw [hm] at h
              cases b' with
              | false =>
                obtain ⟨rfl, -⟩ : v' = w ∧ false = b := by simpa using h
                exact ih _ _ _ _ hm t
              | true =>
                change propagate f v' (.unitsLoop d us) = some (w, b) at h
                exact (ih _ _ _ _ h t).trans (ih _ _ _ _ hm t)
          · rw [if_neg h1] at h
            exact ih _ _ _ _ h t

/-! ## A successful propagation never empties a domain

`eliminate` returns `False` the moment it removes the last value of a
domain, so when the whole call succeeds, any empty domain of the output was
already empty in the input. -/

theorem propagate_nonempty :
    ∀ (f : Nat) (v : Store) (c : PCall) (w : Store),
      propagate f v c = some (w, true) → ∀ t, w t = [] → v t = [] := by
  intro f
  induction f with
  | zero =>
    intro v c w h
    rw [propagate_zero] at h
    exact Option.noConfusion h
  | succ f ih =>
    intro v c w h t hw
    cases c with
    | assign s d =>
      rw [propagate_assign] at h
      exact ih _ _ _ h t hw
    | elimOthers s ds =>
      cases ds with
      | nil =>
        obtain ⟨rfl, -⟩ : v = w ∧ true = true := by
          rw [propagate_elimOthers_nil] at h; simpa using h
        exact hw
      | cons d2 rest =>
        rw [propagate_elimOthers_cons] at h
        cases hm : propagate f v (.elim s d2) with
        | none => rw [hm] at h; exact Option.noConfusion h
        | some p =>
          obtain ⟨v', b'⟩ := p
          rw [hm] at h
          cases b' with
          | false => simp at h
          | true =>
            change propagate f v' (.elimOthers s rest) = some (w, true) at h
            exact ih _ _ _ hm t (ih _ _ _ h t hw)
    | elim s d =>
      rw [propagate_elim] at h
      by_cases hd : d ∈ v s
      · rw [if_pos hd] at h
        by_cases h0 : ((removeVal v s d) s).length = 0
        · rw [if_pos h0] at h; simp at h
        · rw [if_neg h0] at h
          have key : removeVal v s d t = [] → v t = [] := by
            intro hr
            by_cases hts : t = s
            · subst hts
              exact absurd (by rw [hr]; rfl) h0
            · rwa [removeVal_other v d hts] at hr
          by_cases h1 : ((removeVal v s d) s).length = 1
          · rw [if_pos h1] at h
            cases hp : propagate f (removeVal v s d)
                (.elimPeers (((removeVal v s d) s).headI) (peers s)) with
            | none => rw [hp] at h; exact Option.noConfusion h
            | some p =>
              obtain ⟨v2, b2⟩ := p
              rw [hp] at h
              cases b2 with
              | false => simp at h
              | true =>
                change propagate f v2 (.unitsLoop d (units s)) = some (w, true) at h
                exact key (ih _ _ _ hp t (ih _ _ _ h t hw))
          · rw [if_neg h1] at h
            change propagate f (removeVal v s d) (.unitsLoop d (units s)) = some (w, true) at h
            exact key (ih _ _ _ h t hw)
      · rw [if_neg hd] at h
        obtain ⟨rfl, -⟩ : v = w ∧ true = true := by simpa using h
        exact hw
    | elimPeers d2 ps =>
      cases ps with
      | nil =>
        obtain ⟨rfl, -⟩ : v = w ∧ true = true := by
          rw [propagate_elimPeers_nil] at h; simpa using h
        exact hw
      | cons p ps =>
        rw [propagate_elimPeers_cons] at h
        cases hm : propagate f v (.elim p d2) with
        | none => rw [hm] at h; exact Option.noConfusion h
        | some q =>
          obtain ⟨v', b'⟩ := q
          rw [hm] at h
          cases b' with
          | false => simp at h
          | true =>
            change propagate f v' (.elimPeers d2 ps) = some (w, true) at h
            exact ih _ _ _ hm t (ih _ _ _ h t hw)
    | unitsLoop d us =>
      cases us with
      | nil =>
        obtain ⟨rfl, -⟩ : v = w ∧ true = true := by
          rw [propagate_unitsLoop_nil] at h; simpa using h
        exact hw
      | cons u us =>
        rw [propagate_unitsLoop_cons] at h
        by_cases hz : (u.filter (fun t2 => d ∈ v t2)).length = 0
        · rw [if_pos hz] at h; simp at h
        · rw [if_neg hz] at h
          by_cases h1 : (u.filter (fun t2 => d ∈ v t2)).length = 1
          · rw [if_pos h1] at h
            cases hm : propagate f v (.assign ((u.filter (fun t2 => d ∈ v t2)).headI) d) with
            | none => rw [hm] at h; exact Option.noConfusion h
            | some q =>
              obtain ⟨v', b'⟩ := q
              rw [hm] at h
              cases b' with
              | false => simp at h
              | true =>
                change propagate f v' (.unitsLoop d us) = some (w, true) at h
                exact ih _ _ _ hm t (ih _ _ _ h t hw)
          · rw [if_neg h1] at h
            exact ih _ _ _ h t hw

/-! ## The central exclusivity invariant

`BadAt v t p` records a pending conflict: square `t` is already pinned to a
single digit while its peer `p` still admits that digit.  Rule (1) of
`eliminate` exists precisely to remove such conflicts, and a successful
`eliminate`/`assign` never creates a new one.  Starting from the initial
full store (no singleton domains at all), every store produced by a chain
of successful assignments therefore has no pending conflict — which is the
reason a fully reduced grid is a valid solution. -/

def BadAt (v : Store) (t p : String) : Prop :=
  p ∈ peers t ∧ ∃ e, v t = [e] ∧ e ∈ v p

/-- The extra postcondition each kind of successful call guarantees,
beyond preservation of `BadAt`-freeness. -/
def postOf : PCall → Store → Store → Prop
  | .assign s d, v, w => ∀ x ∈ (v s).filter (fun c2 => c2 != d), x ∉ w s
  | .elimOthers s ds, _, w => ∀ x ∈ ds, x ∉ w s
  | .elim s d, _, w => d ∉ w s
  | .elimPeers d2 ps, _, w => ∀ p ∈ ps, d2 ∉ w p
  | .unitsLoop _ _, _, _ => True

theorem badAt_removeVal {v : Store} {s t p : String} {d : Char}
    (h : BadAt (removeVal v s d) t p) (hts : t ≠ s) : BadAt v t p := by
  obtain ⟨hp, e, ht, hep⟩ := h
  refine ⟨hp, e, ?_, mem_of_mem_removeVal hep⟩
  rwa [removeVal_other v d hts] at ht

theorem propagate_post :
    ∀ (f : Nat) (v : Store) (c : PCall) (w : Store),
      propagate f v c = some (w, true) →
      (∀ t p, BadAt w t p → BadAt v t p) ∧ postOf c v w := by
  intro f
  induction f with
  | zero =>
    intro v c w h
    rw [propagate_zero] at h
    exact Option.noConfusion h
  | succ f ih =>
    intro v c w h
    cases c with
    | assign s d =>
      rw [propagate_assign] at h
      have hh := ih v (.elimOthers s ((v s).filter (fun c2 => c2 != d))) w h
      exact ⟨hh.1, hh.2⟩
    | elimOthers s ds =>
      cases ds with
      | nil =>
        obtain ⟨rfl, -⟩ : v = w ∧ True := by
          rw [propagate_elimOthers_nil] at h; simpa using h
        exact ⟨fun t p hb => hb, by simp [postOf]⟩
      | cons d2 rest =>
        rw [propagate_elimOthers_cons] at h
        cases hm : propagate f v (.elim s d2) with
        | none => rw [hm] at h; exact Option.noConfusion h
        | some q =>
          obtain ⟨v', b'⟩ := q
          rw [hm] at h
          cases b' with
          | false => simp at h
          | true =>
            change propagate f v' (.elimOthers s rest) = some (w, true) at h
            obtain ⟨badm1, post1⟩ := ih _ _ _ hm
            obtain ⟨badm2, post2⟩ := ih _ _ _ h
            have hsub : ∀ t, (w t).Sublist (v' t) := propagate_sublist _ _ _ _ _ h
            refine ⟨fun t p hb => badm1 _ _ (badm2 _ _ hb), ?_⟩
            intro x hx
            rcases List.mem_cons.mp hx with rfl | hx2
            · exact fun hmem => post1 ((hsub s).subset hmem)
            · exact post2 x hx2
    | elim s d =>
      rw [propagate_elim] at h
      by_cases hd : d ∈ v s
      · rw [if_pos hd] at h
        by_cases h0 : ((removeVal v s d) s).length = 0
        · rw [if_pos h0] at h; simp at h
        · rw [if_neg h0] at h
          by_cases h1 : ((removeVal v s d) s).length = 1
          · rw [if_pos h1] at h
            obtain ⟨e, he⟩ := List.length_eq_one.mp h1
            cases hp : propagate f (removeVal v s d)
                (.elimPeers (((removeVal v s d) s).headI) (peers s)) with
            | none => rw [hp] at h; exact Option.noConfusion h
            | some q =>
              obtain ⟨v2, b2⟩ := q
              rw [hp] at h
              cases b2 with
              | false => simp at h
              | true =>
                change propagate f v2 (.unitsLoop d (units s)) = some (w, true) at h
                obtain ⟨badm1, post1⟩ := ih _ _ _ hp
                obtain ⟨badm2, -⟩ := ih _ _ _ h
                have post1e : ∀ p ∈ peers s, e ∉ v2 p := by
                  have : ((removeVal v s d) s).headI = e := by rw [he]; rfl
                  simpa [postOf, this] using post1
                have sub2 : ∀ t, (w t).Sublist (v2 t) := propagate_sublist _ _ _ _ _ h
                have sub1 : ∀ t, (v2 t).Sublist (removeVal v s d t) :=
                  propagate_sublist _ _ _ _ _ hp
                constructor
                · intro t p hb
                  have hb1 : BadAt (removeVal v s d) t p := badm1 _ _ (badm2 _ _ hb)
                  by_cases hts : t = s
                  · subst hts
                    obtain ⟨hpeer, e', hws, hewp⟩ := hb
                    exfalso
                    have hsub : (w t).Sublist [e] := by
                      have := (sub2 t).trans (sub1 t)
                      rwa [he] at this
                    have he' : e' = e := by
                      rw [hws] at hsub
                      rcases List.sublist_singleton.mp hsub with h' | h'
                      · exact absurd h' (by simp)
                      · simpa using h'
                    subst he'
                    exact post1e p hpeer ((sub2 p).subset hewp)
                  · exact badAt_removeVal hb1 hts
                · show d ∉ w s
                  intro hmem
                  exact not_mem_removeVal_self v s d
                    (((sub2 s).trans (sub1 s)).subset hmem)
          · rw [if_neg h1] at h
            change propagate f (removeVal v s d) (.unitsLoop d (units s)) = some (w, true) at h
            obtain ⟨badm, -⟩ := ih _ _ _ h
            have hsub : ∀ t, (w t).Sublist (removeVal v s d t) :=
              propagate_sublist _ _ _ _ _ h
            constructor
            · intro t p hb
              have hb1 : BadAt (removeVal v s d) t p := badm _ _ hb
              by_cases hts : t = s
              · subst hts
                obtain ⟨-, e', hts', -⟩ := hb1
                exact absurd (by rw [hts']; rfl) h1
              · exact badAt_removeVal hb1 hts
            · show d ∉ w s
              intro hmem
              exact not_mem_removeVal_self v s d ((hsub s).subset hmem)
      · rw [if_neg hd] at h
        obtain ⟨rfl, -⟩ : v = w ∧ True := by simpa using h
        exact ⟨fun t p hb => hb, hd⟩
    | elimPeers d2 ps =>
      cases ps with
      | nil =>
        obtain ⟨rfl, -⟩ : v = w ∧ True := by
          rw [propagate_elimPeers_nil] at h; simpa using h
        exact ⟨fun t p hb => hb, by simp [postOf]⟩
      | cons p ps =>
        rw [propagate_elimPeers_cons] at h
        cases hm : propagate f v (.elim p d2) with
        | none => rw [hm] at h; exact Option.noConfusion h
        | some q =>
          obtain ⟨v', b'⟩ := q
          rw [hm] at h
          cases b' with
          | false => simp at h
          | true =>
            change propagate f v' (.elimPeers d2 ps) = some (w, true) at h
            obtain ⟨badm1, post1⟩ := ih _ _ _ hm
            obtain ⟨badm2, post2⟩ := ih _ _ _ h
            have hsub : ∀ t, (w t).Sublist (v' t) := propagate_sublist _ _ _ _ _ h
            refine ⟨fun t q hb => badm1 _ _ (badm2 _ _ hb), ?_⟩
            intro q hq
            rcases List.mem_cons.mp hq with rfl | hq2
            · exact fun hmem => post1 ((hsub q).subset hmem)
            · exact post2 q hq2
    | unitsLoop d us =>
      cases us with
      | nil =>
        obtain ⟨rfl, -⟩ : v = w ∧ True := by
          rw [propagate_unitsLoop_nil] at h; simpa using h
        exact ⟨fun t p hb => hb, trivial⟩
      | cons u us =>
        rw [propagate_unitsLoop_cons] at h
        by_cases hz : (u.filter (fun t2 => d ∈ v t2)).length = 0
        · rw [if_pos hz] at h; simp at h
        · rw [if_neg hz] at h
          by_cases h1 : (u.filter (fun t2 => d ∈ v t2)).length = 1
          · rw [if_pos h1] at h
            cases hm : propagate f v (.assign ((u.filter (fun t2 => d ∈ v t2)).headI) d) with
            | none => rw [hm] at h; exact Option.noConfusion h
            | some q =>
              obtain ⟨v', b'⟩ := q
              rw [hm] at h
              cases b' with
              | false => simp at h
              | true =>
                change propagate f v' (.unitsLoop d us) = some (w, true) at h
                obtain ⟨badm1, -⟩ := ih _ _ _ hm
                obtain ⟨badm2, -⟩ := ih _ _ _ h
                exact ⟨fun t p hb => badm1 _ _ (badm2 _ _ hb), trivial⟩
          · rw [if_neg h1] at h
            obtain ⟨badm, -⟩ := ih _ _ _ h
            exact ⟨badm, trivial⟩

/-! ## Sufficient fuel: the propagation terminates

The fuel bound `elimFuel n` (for stores whose total domain size is at most
`n`) is enough: every actual elimination strictly decreases `totalSize`,
and the loops between two eliminations have bounded length (at most 243
peers, 27 units, `n` other values). -/

theorem elimFuel_pos : ∀ n, 1 ≤ elimFuel n
  | 0 => le_refl 1
  | n + 1 => by unfold elimFuel; omega

def ElimOk (n : Nat) : Prop :=
  ∀ f v s d, s ∈ squares → totalSize v ≤ n → elimFuel n ≤ f →
    (propagate f v (.elim s d)).isSome = true

def ElimOthersOk (n : Nat) : Prop :=
  ∀ f v s ds, s ∈ squares → totalSize v ≤ n →
    List.length (ds : List Char) + elimFuel n + 1 ≤ f →
    (propagate f v (.elimOthers s ds)).isSome = true

def ElimPeersOk (n : Nat) : Prop :=
  ∀ f v d2 ps, (∀ p ∈ ps, p ∈ squares) → totalSize v ≤ n →
    List.length (ps : List String) + elimFuel n + 1 ≤ f →
    (propagate f v (.elimPeers d2 ps)).isSome = true

def AssignOk (n : Nat) : Prop :=
  ∀ f v s d, s ∈ squares → totalSize v ≤ n → assignFuel n ≤ f →
    (propagate f v (.assign s d)).isSome = true

def UnitsOk (n : Nat) : Prop :=
  ∀ f v d us, (∀ u ∈ us, ∀ x ∈ u, x ∈ squares) → totalSize v ≤ n →
    List.length (us : List (List String)) + assignFuel n + 1 ≤ f →
    (propagate f v (.unitsLoop d us)).isSome = true

theorem propagate_fuel :
    ∀ n, ElimOk n ∧ ElimOthersOk n ∧ ElimPeersOk n ∧ AssignOk n ∧ UnitsOk n := by
  intro n
  induction n using Nat.strong_induction_on with
  | _ n IH =>
  have hElim : ElimOk n := by
    intro f v s d hs hv hf
    have hf1 : 1 ≤ f := le_trans (elimFuel_pos n) hf
    obtain ⟨g, rfl⟩ : ∃ g, f = g + 1 := ⟨f - 1, by omega⟩
    rw [propagate_elim]
    by_cases hd : d ∈ v s
    · rw [if_pos hd]
      have hn1 : 1 ≤ n := by
        have h1 : 0 < (v s).length := List.length_pos.mpr (List.ne_nil_of_mem hd)
        have h2 := domain_length_le_totalSize (v := v) hs
        omega
      obtain ⟨m, rfl⟩ : ∃ m, n = m + 1 := ⟨n - 1, by omega⟩
      have hlt : totalSize (removeVal v s d) < totalSize v := totalSize_removeVal_lt hs hd
      have hvm : totalSize (removeVal v s d) ≤ m := by omega
      have hEF : elimFuel (m + 1) = elimFuel m + (m + 1) + 301 := rfl
      have hAF : assignFuel m = elimFuel m + m + 2 := rfl
      have hg : elimFuel m + (m + 1) + 301 ≤ g + 1 := hEF ▸ hf
      have hP3 : ElimPeersOk m := (IH m (by omega)).2.2.1
      have hP5 : UnitsOk m := (IH m (by omega)).2.2.2.2
      have hUcall : ∀ v2, totalSize v2 ≤ m →
          (propagate g v2 (.unitsLoop d (units s))).isSome = true := by
        intro v2 hv2
        apply hP5 g v2 d (units s) ?_ hv2 ?_
        · intro u hu x hx
          exact unitlist_mem_squares u (units_subset_unitlist s hu) x hx
        · have := units_length_le s
          omega
      by_cases h0 : ((removeVal v s d) s).length = 0
      · rw [if_pos h0]; rfl
      · rw [if_neg h0]
        by_cases h1 : ((removeVal v s d) s).length = 1
        · rw [if_pos h1]
          have hps : (propagate g (removeVal v s d)
              (.elimPeers (((removeVal v s d) s).headI) (peers s))).isSome = true := by
            apply hP3 g (removeVal v s d) _ (peers s)
              (fun p hp => peers_subset_squares hp) hvm
            have := peers_length_le s
            omega
          obtain ⟨⟨v2, b2⟩, hp⟩ := Option.isSome_iff_exists.mp hps
          rw [hp]
          cases b2 with
          | false => rfl
          | true =>
            have hv2 : totalSize v2 ≤ m :=
              le_trans (totalSize_le_of_sublist (propagate_sublist _ _ _ _ _ hp)) hvm
            change (propagate g v2 (.unitsLoop d (units s))).isSome = true
            exact hUcall v2 hv2
        · rw [if_neg h1]
          change (propagate g (removeVal v s d) (.unitsLoop d (units s))).isSome = true
          exact hUcall _ hvm
    · rw [if_neg hd]; rfl
  have hOth : ElimOthersOk n := by
    intro f v s ds hs
    revert f v
    induction ds with
    | nil =>
      intro f v hv hf
      obtain ⟨g, rfl⟩ : ∃ g, f = g + 1 := ⟨f - 1, by omega⟩
      rw [propagate_elimOthers_nil]; rfl
    | cons d2 rest ihds =>
      intro f v hv hf
      have hlen : (d2 :: rest).length = rest.length + 1 := rfl
      obtain ⟨g, rfl⟩ : ∃ g, f = g + 1 := ⟨f - 1, by omega⟩
      rw [propagate_elimOthers_cons]
      have he : (propagate g v (.elim s d2)).isSome = true := by
        apply hElim g v s d2 hs hv
        omega
      obtain ⟨⟨v', b'⟩, hm⟩ := Option.isSome_iff_exists.mp he
      rw [hm]
      cases b' with
      | false => rfl
      | true =>
        change (propagate g v' (.elimOthers s rest)).isSome = true
        apply ihds g v'
          (le_trans (totalSize_le_of_sublist (propagate_sublist _ _ _ _ _ hm)) hv)
        omega
  have hPeers : ElimPeersOk n := by
    intro f v d2 ps
    revert f v
    induction ps with
    | nil =>
      intro f v hps hv hf
      obtain ⟨g, rfl⟩ : ∃ g, f = g + 1 := ⟨f - 1, by omega⟩
      rw [propagate_elimPeers_nil]; rfl
    | cons p ps ihps =>
      intro f v hps hv hf
      have hlen : (p :: ps).length = ps.length + 1 := rfl
      obtain ⟨g, rfl⟩ : ∃ g, f = g + 1 := ⟨f - 1, by omega⟩
      rw [propagate_elimPeers_cons]
      have he : (propagate g v (.elim p d2)).isSome = true := by
        apply hElim g v p d2 (hps p (List.mem_cons_self p ps)) hv
        omega
      obtain ⟨⟨v', b'⟩, hm⟩ := Option.isSome_iff_exists.mp he
      rw [hm]
      cases b' with
      | false => rfl
      | true =>
        change (propagate g v' (.elimPeers d2 ps)).isSome = true
        apply ihps g v' (fun q hq => hps q (List.mem_cons_of_mem p hq))
          (le_trans (totalSize_le_of_sublist (propagate_sublist _ _ _ _ _ hm)) hv)
        omega
  have hAssign : AssignOk n := by
    intro f v s d hs hv hf
    have hAF : assignFuel n = elimFuel n + n + 2 := rfl
    obtain ⟨g, rfl⟩ : ∃ g, f = g + 1 := ⟨f - 1, by omega⟩
    rw [propagate_assign]
    apply hOth g v s _ hs hv
    have hl1 : ((v s).filter (fun c2 => c2 != d)).length ≤ (v s).length :=
      List.length_filter_le _ _
    have hl2 : (v s).length ≤ totalSize v := domain_length_le_totalSize hs
    omega
  have hUnits : UnitsOk n := by
    intro f v d us
    revert f v
    induction us with
    | nil =>
      intro f v hus hv hf
      obtain ⟨g, rfl⟩ : ∃ g, f = g + 1 := ⟨f - 1, by omega⟩
      rw [propagate_unitsLoop_nil]; rfl
    | cons u us ihus =>
      intro f v hus hv hf
      have hlen : (u :: us).length = us.length + 1 := rfl
      obtain ⟨g, rfl⟩ : ∃ g, f = g + 1 := ⟨f - 1, by omega⟩
      rw [propagate_unitsLoop_cons]
      by_cases hz : (u.filter (fun t2 => d ∈ v t2)).length = 0
      · rw [if_pos hz]; rfl
      · rw [if_neg hz]
        by_cases h1 : (u.filter (fun t2 => d ∈ v t2)).length = 1
        · rw [if_pos h1]
          have hhead : (u.filter (fun t2 => d ∈ v t2)).headI ∈ squares := by
            obtain ⟨a, ha⟩ := List.length_eq_one.mp h1
            have ham : a ∈ u.filter (fun t2 => d ∈ v t2) := by
              rw [ha]; exact List.mem_singleton_self a
            have hau : a ∈ u := List.mem_of_mem_filter ham
            have := hus u (List.mem_cons_self u us) a hau
            rw [ha]; simpa using this
          have ha : (propagate g v
              (.assign ((u.filter (fun t2 => d ∈ v t2)).headI) d)).isSome = true := by
            apply hAssign g v _ d hhead hv
            omega
          obtain ⟨⟨v', b'⟩, hm⟩ := Option.isSome_iff_exists.mp ha
          rw [hm]
          cases b' with
          | false => rfl
          | true =>
            change (propagate g v' (.unitsLoop d us)).isSome = true
            apply ihus g v' (fun u2 hu2 => hus u2 (List.mem_cons_of_mem u hu2))
              (le_trans (totalSize_le_of_sublist (propagate_sublist _ _ _ _ _ hm)) hv)
            omega
        · rw [if_neg h1]
          apply ihus g v (fun u2 hu2 => hus u2 (List.mem_cons_of_mem u hu2)) hv
          omega
  exact ⟨hElim, hOth, hPeers, hAssign, hUnits⟩

/-! ## The top-level `eliminate` and `assign` -/

/-- `eliminate(values, s, d)` (source lines 89-111), run with the provably
sufficient fuel `elimFuel (totalSize v)`.  For the 81 real squares the fuel
never runs out (`propagate_fuel`), so the default is never taken. -/
def eliminate (v : Store) (s : String) (d : Char) : Store × Bool :=
  (eliminateF (elimFuel (totalSize v)) v s d).getD (v, false)

/-- `assign(values, s, d)` (source lines 79-86). -/
def assign (v : Store) (s : String) (d : Char) : Store × Bool :=
  (assignF (assignFuel (totalSize v)) v s d).getD (v, false)

theorem eliminateF_isSome {v : Store} {s : String} (d : Char) (hs : s ∈ squares) :
    (eliminateF (elimFuel (totalSize v)) v s d).isSome = true :=
  (propagate_fuel (totalSize v)).1 _ v s d hs (le_refl _) (le_refl _)

theorem assignF_isSome {v : Store} {s : String} (d : Char) (hs : s ∈ squares) :
    (assignF (assignFuel (totalSize v)) v s d).isSome = true :=
  (propagate_fuel (totalSize v)).2.2.2.1 _ v s d hs (le_refl _) (le_refl _)

theorem eliminate_eq {v : Store} {s : String} {d : Char} (hs : s ∈ squares) :
    eliminateF (elimFuel (totalSize v)) v s d = some (eliminate v s d) := by
  obtain ⟨r, hr⟩ := Option.isSome_iff_exists.mp (eliminateF_isSome d hs)
  rw [hr]
  unfold eliminate
  rw [hr]
  rfl

theorem assign_eq {v : Store} {s : String} {d : Char} (hs : s ∈ squares) :
    assignF (assignFuel (totalSize v)) v s d = some (assign v s d) := by
  obtain ⟨r, hr⟩ := Option.isSome_iff_exists.mp (assignF_isSome d hs)
  rw [hr]
  unfold assign
  rw [hr]
  rfl

/-- After an actual elimination (`d ∈ v s`), the result is a pointwise
subsequence of the store with `d` already removed from `s`. -/
theorem propagate_elim_removeVal_sublist {f : Nat} {v : Store} {s : String} {d : Char}
    {w : Store} {b : Bool} (h : propagate (f + 1) v (.elim s d) = some (w, b))
    (hd : d ∈ v s) : ∀ t, (w t).Sublist (removeVal v s d t) := by
  rw [propagate_elim, if_pos hd] at h
  by_cases h0 : ((removeVal v s d) s).length = 0
  · rw [if_pos h0] at h
    obtain ⟨rfl, -⟩ : removeVal v s d = w ∧ false = b := by simpa using h
    exact fun t => List.Sublist.refl _
  · rw [if_neg h0] at h
    by_cases h1 : ((removeVal v s d) s).length = 1
    · rw [if_pos h1] at h
      cases hp : propagate f (removeVal v s d)
          (.elimPeers (((removeVal v s d) s).headI) (peers s)) with
      | none => rw [hp] at h; exact Option.noConfusion h
      | some q =>
        obtain ⟨v2, b2⟩ := q
        rw [hp] at h
        cases b2 with
        | false =>
          obtain ⟨rfl, -⟩ : v2 = w ∧ false = b := by simpa using h
          exact fun t => propagate_sublist _ _ _ _ _ hp t
        | true =>
          change propagate f v2 (.unitsLoop d (units s)) = some (w, b) at h
          exact fun t => (propagate_sublist _ _ _ _ _ h t).trans
            (propagate_sublist _ _ _ _ _ hp t)
    · rw [if_neg h1] at h
      change propagate f (removeVal v s d) (.unitsLoop d (units s)) = some (w, b) at h
      exact fun t => propagate_sublist _ _ _ _ _ h t

/-- A successful `assign` leaves exactly `[d]` in the domain of `s`,
provided `d` was in the domain and the domain was duplicate-free. -/
theorem propagate_assign_singleton {f : Nat} {v : Store} {s : String} {d : Char}
    {w : Store} (h : propagate f v (.assign s d) = some (w, true))
    (hd : d ∈ v s) (hnd : (v s).Nodup) : w s = [d] := by
  have hpost : ∀ x ∈ (v s).filter (fun c2 => c2 != d), x ∉ w s :=
    (propagate_post _ _ _ _ h).2
  have hsub : (w s).Sublist (v s) := propagate_sublist _ _ _ _ _ h s
  have hne : w s ≠ [] := by
    intro hempty
    exact (List.ne_nil_of_mem hd) (propagate_nonempty _ _ _ _ h s hempty)
  have hall : ∀ x ∈ w s, x = d := by
    intro x hx
    by_contra hxd
    exact hpost x (List.mem_filter.mpr ⟨hsub.subset hx, by simpa using hxd⟩) hx
  have hnodup : (w s).Nodup := hnd.sublist hsub
  obtain ⟨a, l, hws⟩ : ∃ a l, w s = a :: l := by
    cases hws : w s with
    | nil => exact absurd hws hne
    | cons a l => exact ⟨a, l, rfl⟩
  have ha : a = d := hall a (by rw [hws]; exact List.mem_cons_self a l)
  have hl : l = [] := by
    by_contra hlne
    obtain ⟨a2, ha2⟩ := List.exists_mem_of_ne_nil l hlne
    have ha2d : a2 = d := hall a2 (by rw [hws]; exact List.mem_cons_of_mem a ha2)
    have hnd2 : (a :: l).Nodup := by rw [← hws]; exact hnodup
    rw [List.nodup_cons] at hnd2
    exact hnd2.1 (by rw [ha, ← ha2d]; exact ha2)
  rw [hws, ha, hl]

/-- A successful `assign` on a nonempty domain implies the assigned digit
was still in that domain (otherwise all of it gets eliminated, which
removes the last value and fails). -/
theorem propagate_assign_mem {f : Nat} {v : Store} {s : String} {d : Char}
    {w : Store} (h : propagate f v (.assign s d) = some (w, true))
    (hne : v s ≠ []) : d ∈ v s := by
  have hwne : w s ≠ [] := fun he => hne (propagate_nonempty _ _ _ _ h s he)
  obtain ⟨x, hx⟩ := List.exists_mem_of_ne_nil _ hwne
  have hpost : ∀ y ∈ (v s).filter (fun c2 => c2 != d), y ∉ w s :=
    (propagate_post _ _ _ _ h).2
  have hxv : x ∈ v s := (propagate_sublist _ _ _ _ _ h s).subset hx
  by_contra hd
  by_cases hxd : x = d
  · exact hd (hxd ▸ hxv)
  · exact hpost x (List.mem_filter.mpr ⟨hxv, by simpa using hxd⟩) hx

/-- **C7**: For every candidate store, cell and digit, the mutually
recursive constraint propagation through `eliminate` and `assign`
terminates: with fuel `elimFuel (totalSize v)` (resp. `assignFuel`), the
embedded functions always deliver a result — the recursion is bounded by
the total size of the domains, which strictly decreases with each actual
elimination (second conjunct). -/
theorem c7_propagation_terminates :
    (∀ (v : Store) (s : String) (d : Char), s ∈ squares →
      (eliminateF (elimFuel (totalSize v)) v s d).isSome = true ∧
      (assignF (assignFuel (totalSize v)) v s d).isSome = true) ∧
    (∀ (v : Store) (s : String) (d : Char), s ∈ squares → d ∈ v s →
      totalSize (eliminate v s d).1 < totalSize v) := by
  constructor
  · intro v s d hs
    exact ⟨eliminateF_isSome d hs, assignF_isSome d hs⟩
  · intro v s d hs hd
    have h1 : 1 ≤ elimFuel (totalSize v) := elimFuel_pos _
    obtain ⟨g, hg⟩ : ∃ g, elimFuel (totalSize v) = g + 1 :=
      ⟨elimFuel (totalSize v) - 1, by omega⟩
    have heq := eliminate_eq (v := v) (s := s) (d := d) hs
    unfold eliminateF at heq
    rw [hg] at heq
    have heq2 : propagate (g + 1) v (.elim s d) =
        some ((eliminate v s d).1, (eliminate v s d).2) := by
      rw [Prod.mk.eta]; exact heq
    have hsub : ∀ t, ((eliminate v s d).1 t).Sublist (removeVal v s d t) :=
      propagate_elim_removeVal_sublist heq2 hd
    calc totalSize (eliminate v s d).1
        ≤ totalSize (removeVal v s d) := totalSize_le_of_sublist hsub
      _ < totalSize v := totalSize_removeVal_lt hs hd

set_option maxRecDepth 1000000 in
set_option maxHeartbeats 2000000 in
/-- Witness for C7 at a concrete store: all domains are `['1']`. -/
theorem c7_witness :
    ((eliminateF (elimFuel (totalSize (fun _ => ['1']))) (fun _ => ['1']) "A1" '1').isSome = true
      ∧ (assignF (assignFuel (totalSize (fun _ => ['1']))) (fun _ => ['1']) "A1" '1').isSome = true)
    ∧ totalSize (eliminate (fun _ => ['1']) "A1" '1').1 < totalSize (fun _ => ['1']) :=
  ⟨c7_propagation_terminates.1 (fun _ => ['1']) "A1" '1' (by decide),
   c7_propagation_terminates.2 (fun _ => ['1']) "A1" '1' (by decide) (by decide)⟩

/-- **C9**: Domains only ever shrink: after any call to `eliminate` or
`assign` — whether it succeeds or signals a contradiction — every cell's
domain in the resulting store is a subsequence of that cell's domain before
the call. -/
theorem c9_domains_only_shrink :
    ∀ (v : Store) (s : String) (d : Char) (t : String),
      ((eliminate v s d).1 t).Sublist (v t) ∧ ((assign v s d).1 t).Sublist (v t) := by
  intro v s d t
  constructor
  · unfold eliminate
    cases hp : eliminateF (elimFuel (totalSize v)) v s d with
    | none => exact List.Sublist.refl _
    | some r => exact propagate_sublist _ _ _ r.1 r.2 hp t
  · unfold assign
    cases hp : assignF (assignFuel (totalSize v)) v s d with
    | none => exact List.Sublist.refl _
    | some r => exact propagate_sublist _ _ _ r.1 r.2 hp t

/-- **C8**: For every candidate store (domains being duplicate-free
ordered sets of digits, per the data model), cell `s`, and digit `d`
currently in `s`'s domain: if `assign(store, s, d)` succeeds, the domain of
`s` in the returned store is exactly the singleton `[d]`. -/
theorem c8_assign_sets_singleton (v : Store) (s : String) (d : Char)
    (hs : s ∈ squares) (hd : d ∈ v s) (hnd : (v s).Nodup)
    (hok : (assign v s d).2 = true) :
    (assign v s d).1 s = [d] := by
  have heq := assign_eq (v := v) (s := s) (d := d) hs
  have heq2 : propagate (assignFuel (totalSize v)) v (.assign s d) =
      some ((assign v s d).1, true) := by
    rw [← hok]
    exact heq
  exact propagate_assign_singleton heq2 hd hnd

set_option maxRecDepth 1000000 in
set_option maxHeartbeats 2000000 in
/-- Witness for C8: assigning `'5'` to `"A1"` in the store where every
domain is already `['5']` succeeds and leaves `["A1" ↦ ['5']]`. -/
theorem c8_witness :
    "A1" ∈ squares ∧ ('5' : Char) ∈ (fun (_ : String) => ['5']) "A1" ∧
    ((fun (_ : String) => ['5']) "A1").Nodup ∧
    (assign (fun _ => ['5']) "A1" '5').2 = true ∧
    (assign (fun _ => ['5']) "A1" '5').1 "A1" = ['5'] :=
  ⟨by decide, by decide, by decide, by decide,
   c8_assign_sets_singleton (fun _ => ['5']) "A1" '5' (by decide) (by decide)
     (by decide) (by decide)⟩

/-! ## Parsing a grid -/

/-- `grid_values(grid)` (source lines 70-74): keep only digit / `'0'` /
`'.'` characters, require exactly 81 of them (the Python `assert` becomes
`none`), and pair them with the squares in row-major order
(`dict(zip(squares, chars))` keeps exactly this association, in this
order). -/
def grid_values (grid : List Char) : Option (List (String × Char)) :=
  if (grid.filter (fun c => digits.contains c || c == '0' || c == '.')).length = 81 then
    some (squares.zip (grid.filter (fun c => digits.contains c || c == '0' || c == '.')))
  else none

/-- `values = dict((s, digits) for s in squares)` (source line 63): to
start, every square can be any digit. -/
def initialStore : Store := fun _ => digits

/-- The assignment loop of `parse_grid` (source lines 64-66): assign each
given digit, short-circuiting to `none` (Python's `return False`) on the
first failed assignment; characters outside `digits` (`'0'`, `'.'`) are
skipped. -/
def assignAll : Store → List (String × Char) → Option Store
  | v, [] => some v
  | v, (s, d) :: rest =>
    if d ∈ digits then
      if (assign v s d).2 then assignAll (assign v s d).1 rest else none
    else assignAll v rest

/-- `parse_grid(grid)` (source lines 59-67).  Outer `none`: the
`grid_values` assertion failed (the exception propagates out).  Inner
`none`: `parse_grid` returned `False`. -/
def parse_grid (grid : List Char) : Option (Option Store) :=
  match grid_values grid with
  | none => none
  | some gv => some (assignAll initialStore gv)

/-! ## Depth-first search -/

/-- `n, s = min((len(values[s]), s) for s in squares if len(values[s]) > 1)`
(source line 139): the most-constrained undetermined square, with Python's
tuple order (domain size first, then square name).  `none` when every
domain has size ≤ 1 — in Python `min` of an empty sequence raises, a state
unreachable from `solve`. -/
def minCand (v : Store) : Option String :=
  match squares.filter (fun s => 1 < (v s).length) with
  | [] => none
  | c :: cs => some (cs.foldl (fun best x =>
      if (v x).length < (v best).length ∨
        ((v x).length = (v best).length ∧ x < best) then x else best) c)

/-- Call states of `search` (source lines 132-141): `run r` is a call
`search(values)` where `r = none` encodes `values is False`; `tryDigits`
runs `some(search(assign(values.copy(), s, d)) for d in values[s])`,
taking the first non-`False` result. -/
inductive SCall where
  | run (r : Option Store)
  | tryDigits (v : Store) (s : String) (ds : List Char)

/-- Fuelled interpreter for `search`.  Result: `none` = out of fuel or a
Python exception (unreachable from `solve`); `some none` = `False`;
`some (some w)` = a fully reduced store. -/
def searchGo : Nat → SCall → Option (Option Store)
  | _, .run none => some none            -- "Failed earlier"
  | 0, _ => none
  | f + 1, .run (some v) =>
    if squares.all (fun s => (v s).length == 1) then some (some v)  -- "Solved!"
    else
      match minCand v with
      | none => none
      | some s => searchGo f (.tryDigits v s (v s))
  | _ + 1, .tryDigits _ _ [] => some none  -- some(...) exhausted: False
  | f + 1, .tryDigits v s (d :: ds) =>
    match searchGo f (.run (if (assign v s d).2 then some (assign v s d).1 else none)) with
    | none => none
    | some (some w) => some (some w)
    | some none => searchGo f (.tryDigits v s ds)

/-- `search(values)` (source line 132).  The fuel `10 * totalSize v + 20`
covers the reachable recursion: every committed `assign` pins one more
square and strictly shrinks `totalSize`, and each level tries at most nine
digits. -/
def search (r : Option Store) : Option (Option Store) :=
  searchGo (match r with | none => 1 | some v => 10 * totalSize v + 20) (.run r)

/-- `solve(grid) = search(parse_grid(grid))` (source line 129). -/
def solve (grid : List Char) : Option (Option Store) :=
  (parse_grid grid).bind search

/-! ## The `solved` predicate (source lines 191-196) -/

/-- `unitsolved(unit)`: `set(values[s] for s in unit) == set(digits)`.
The first set collects whole domain strings; Python set equality is
two-sided membership, so the collected domains must be, as a set, exactly
the nine one-digit strings. -/
def unitsolved (v : Store) (u : List String) : Bool :=
  (u.map v).all (fun dom => (digits.map (fun d => [d])).contains dom) &&
  (digits.map (fun d => [d])).all (fun dom => (u.map v).contains dom)

/-- `solved(values)`: `values is not False` and every unit is solved. -/
def solved : Option Store → Bool
  | none => false
  | some v => unitlist.all (fun u => unitsolved v u)

/-! ## Invariants carried by every store the exact solver manipulates -/

/-- The stores reachable from `parse_grid`'s initial full store by
successful assignments: every domain is a subsequence of `digits`, no
domain is empty, and there is no pending singleton/peer conflict. -/
def GoodNE (v : Store) : Prop :=
  (∀ t, (v t).Sublist digits) ∧ (∀ t, v t ≠ []) ∧ (∀ t p, ¬ BadAt v t p)

theorem initialStore_goodNE : GoodNE initialStore := by
  refine ⟨fun t => List.Sublist.refl _, fun t => by simp [initialStore, digits], ?_⟩
  rintro t p ⟨-, e, ht, -⟩
  have := congrArg List.length ht
  simp [initialStore, digits] at this

/-- `propagate`-level success of the wrapper `assign`, for real squares. -/
theorem assign_propagate {v : Store} {s : String} {d : Char} (hs : s ∈ squares)
    (hok : (assign v s d).2 = true) :
    propagate (assignFuel (totalSize v)) v (.assign s d) =
      some ((assign v s d).1, true) := by
  have heq := assign_eq (v := v) (s := s) (d := d) hs
  unfold assignF at heq
  rw [heq, ← hok, Prod.mk.eta]

theorem assign_sublist {v : Store} {s : String} {d : Char} (hs : s ∈ squares)
    (hok : (assign v s d).2 = true) :
    ∀ t, ((assign v s d).1 t).Sublist (v t) :=
  fun t => propagate_sublist _ _ _ _ _ (assign_propagate hs hok) t

theorem assign_goodNE {v : Store} {s : String} {d : Char} (hs : s ∈ squares)
    (hok : (assign v s d).2 = true) (hg : GoodNE v) : GoodNE (assign v s d).1 := by
  obtain ⟨hsub, hne, hbad⟩ := hg
  refine ⟨fun t => (assign_sublist hs hok t).trans (hsub t), ?_, ?_⟩
  · intro t ht
    exact hne t (propagate_nonempty _ _ _ _ (assign_propagate hs hok) t ht)
  · intro t p hb
    exact hbad t p ((propagate_post _ _ _ _ (assign_propagate hs hok)).1 t p hb)

/-- A pinned singleton domain stays pinned across a successful `assign`. -/
theorem assign_keeps_singleton {v : Store} {s p : String} {d e : Char}
    (hs : s ∈ squares) (hok : (assign v s d).2 = true) (hg : GoodNE v)
    (hp : v p = [e]) : (assign v s d).1 p = [e] := by
  have hsub : ((assign v s d).1 p).Sublist [e] := hp ▸ assign_sublist hs hok p
  rcases List.sublist_singleton.mp hsub with h0 | h1
  · exact absurd ((assign_goodNE hs hok hg).2.1 p) (by simp [h0])
  · exact h1

/-! ## Unfolding equations for `searchGo` -/

theorem searchGo_run_none (f : Nat) : searchGo f (.run none) = some none := by
  cases f <;> rfl

theorem searchGo_zero_run_some (v : Store) : searchGo 0 (.run (some v)) = none := rfl

theorem searchGo_zero_try (v : Store) (s : String) (ds : List Char) :
    searchGo 0 (.tryDigits v s ds) = none := rfl

theorem searchGo_run_some (f : Nat) (v : Store) :
    searchGo (f + 1) (.run (some v)) =
      (if squares.all (fun s => (v s).length == 1) then some (some v)
      else match minCand v with
        | none => none
        | some s => searchGo f (.tryDigits v s (v s))) := rfl

theorem searchGo_try_nil (f : Nat) (v : Store) (s : String) :
    searchGo (f + 1) (.tryDigits v s []) = some none := rfl

theorem searchGo_try_cons (f : Nat) (v : Store) (s : String) (d : Char) (ds : List Char) :
    searchGo (f + 1) (.tryDigits v s (d :: ds)) =
      (match searchGo f (.run (if (assign v s d).2 then some (assign v s d).1 else none)) with
      | none => none
      | some (some w) => some (some w)
      | some none => searchGo f (.tryDigits v s ds)) := rfl

/-! ## The chosen square of `search` is a real, undetermined square -/

theorem foldl_pick_mem (v : Store) :
    ∀ (cs : List String) (c : String),
      (cs.foldl (fun best x =>
        if (v x).length < (v best).length ∨
          ((v x).length = (v best).length ∧ x < best) then x else best) c) ∈ c :: cs := by
  intro cs
  induction cs with
  | nil => intro c; exact List.mem_singleton_self c
  | cons x cs ihcs =>
    intro c
    rw [List.foldl_cons]
    have hm := ihcs (if (v x).length < (v c).length ∨
      ((v x).length = (v c).length ∧ x < c) then x else c)
    rcases List.mem_cons.mp hm with he | hm2
    · rw [he]
      by_cases hc : (v x).length < (v c).length ∨ ((v x).length = (v c).length ∧ x < c)
      · rw [if_pos hc]; exact List.mem_cons_of_mem c (List.mem_cons_self x cs)
      · rw [if_neg hc]; exact List.mem_cons_self c _
    · exact List.mem_cons_of_mem c (List.mem_cons_of_mem x hm2)

theorem minCand_spec {v : Store} {s : String} (h : minCand v = some s) :
    s ∈ squares ∧ 1 < (v s).length := by
  unfold minCand at h
  cases hf : squares.filter (fun s2 => 1 < (v s2).length) with
  | nil => rw [hf] at h; exact Option.noConfusion h
  | cons c cs =>
    rw [hf] at h
    injection h with h
    have hmem : s ∈ c :: cs := h ▸ foldl_pick_mem v cs c
    rw [← hf] at hmem
    have := List.mem_filter.mp hmem
    exact ⟨this.1, by simpa using this.2⟩

/-! ## A fully reduced good store is solved -/

theorem solved_of_goodNE {v : Store} (hsub : ∀ t, (v t).Sublist digits)
    (hbad : ∀ t p, ¬ BadAt v t p)
    (hall : ∀ s ∈ squares, (v s).length = 1) : solved (some v) = true := by
  unfold solved
  rw [List.all_eq_true]
  intro u hu
  have hu9 : u.length = 9 := unitlist_length_nine u hu
  have hund : u.Nodup := unitlist_nodup u hu
  have husq : ∀ x ∈ u, x ∈ squares := unitlist_mem_squares u hu
  have hsingle : ∀ s ∈ u, ∃ e, v s = [e] ∧ e ∈ digits := by
    intro s hsu
    obtain ⟨e, he⟩ := List.length_eq_one.mp (hall s (husq s hsu))
    exact ⟨e, he, (hsub s).subset (by rw [he]; exact List.mem_singleton_self e)⟩
  have hinj : ∀ s1 ∈ u, ∀ s2 ∈ u, v s1 = v s2 → s1 = s2 := by
    intro s1 h1 s2 h2 heq
    by_contra hne
    obtain ⟨e, he1, -⟩ := hsingle s1 h1
    apply hbad s2 s1
    refine ⟨mem_peers_of_same_unit hu h2 h1 hne, e, ?_, ?_⟩
    · rw [← heq]; exact he1
    · rw [he1]; exact List.mem_singleton_self e
  have hnodup : (u.map v).Nodup := List.Nodup.map_on hinj hund
  have hsubset : ∀ dom ∈ u.map v, dom ∈ digits.map (fun d => [d]) := by
    intro dom hdom
    obtain ⟨s, hsu, rfl⟩ := List.mem_map.mp hdom
    obtain ⟨e, he, hed⟩ := hsingle s hsu
    rw [he]
    exact List.mem_map_of_mem _ hed
  have hdn : (digits.map (fun d => [d])).Nodup := by decide
  have hcard : ((digits.map (fun d => [d])).toFinset).card ≤ ((u.map v).toFinset).card := by
    rw [List.toFinset_card_of_nodup hnodup, List.toFinset_card_of_nodup hdn]
    simp [hu9, digits]
  have hfeq : (u.map v).toFinset = (digits.map (fun d => [d])).toFinset := by
    apply Finset.eq_of_subset_of_card_le ?_ hcard
    intro dom hdom
    rw [List.mem_toFinset] at hdom ⊢
    exact hsubset dom hdom
  unfold unitsolved
  rw [Bool.and_eq_true]
  constructor
  · rw [List.all_eq_true]
    intro dom hdom
    exact List.elem_iff.mpr (hsubset dom hdom)
  · rw [List.all_eq_true]
    intro dom hdom
    have hm : dom ∈ (u.map v).toFinset := by
      rw [hfeq, List.mem_toFinset]
      exact hdom
    exact List.elem_iff.mpr (List.mem_toFinset.mp hm)

/-! ## Search only ever returns solved stores -/

/-- Invariant on a `search` call state. -/
def GoodC : SCall → Prop
  | .run none => True
  | .run (some v) => GoodNE v
  | .tryDigits v s _ => GoodNE v ∧ s ∈ squares

theorem searchGo_solved :
    ∀ (f : Nat) (c : SCall) (w : Store),
      searchGo f c = some (some w) → GoodC c → solved (some w) = true := by
  intro f
  induction f with
  | zero =>
    intro c w h hg
    cases c with
    | run r =>
      cases r with
      | none => rw [searchGo_run_none] at h; simp at h
      | some v => rw [searchGo_zero_run_some] at h; exact Option.noConfusion h
    | tryDigits v s ds => rw [searchGo_zero_try] at h; exact Option.noConfusion h
  | succ f ih =>
    intro c w h hg
    cases c with
    | run r =>
      cases r with
      | none => rw [searchGo_run_none] at h; simp at h
      | some v =>
        rw [searchGo_run_some] at h
        by_cases hall : squares.all (fun s => (v s).length == 1) = true
        · rw [if_pos hall] at h
          obtain rfl : v = w := by simpa using h
          obtain ⟨hsub, hne, hbad⟩ := hg
          apply solved_of_goodNE hsub hbad
          intro s hs
          have := List.all_eq_true.mp hall s hs
          simpa using this
        · rw [if_neg hall] at h
          cases hm : minCand v with
          | none => rw [hm] at h; exact Option.noConfusion h
          | some s =>
            rw [hm] at h
            exact ih _ _ h ⟨hg, (minCand_spec hm).1⟩
    | tryDigits v s ds =>
      cases ds with
      | nil => rw [searchGo_try_nil] at h; simp at h
      | cons d ds =>
        rw [searchGo_try_cons] at h
        obtain ⟨hgv, hs⟩ := hg
        cases hr : searchGo f
            (.run (if (assign v s d).2 then some (assign v s d).1 else none)) with
        | none => rw [hr] at h; exact Option.noConfusion h
        | some r2 =>
          rw [hr] at h
          cases r2 with
          | none =>
            change searchGo f (.tryDigits v s ds) = some (some w) at h
            exact ih _ _ h ⟨hgv, hs⟩
          | some w2 =>
            obtain rfl : w2 = w := by simpa using h
            apply ih _ _ hr
            cases hok : (assign v s d).2 with
            | true => exact assign_goodNE hs hok hgv
            | false => exact trivial

/-! ## The stores produced by `parse_grid` are good -/

theorem grid_values_squares {grid : List Char} {gv : List (String × Char)}
    (h : grid_values grid = some gv) : ∀ e ∈ gv, e.1 ∈ squares := by
  unfold grid_values at h
  split at h
  · injection h with h
    subst h
    rintro ⟨s, c⟩ he
    exact (List.of_mem_zip he).1
  · exact Option.noConfusion h

theorem assignAll_goodNE :
    ∀ (l : List (String × Char)) (v w : Store),
      (∀ e ∈ l, e.1 ∈ squares) → GoodNE v → assignAll v l = some w → GoodNE w := by
  intro l
  induction l with
  | nil =>
    intro v w _ hg h
    obtain rfl : v = w := by simpa [assignAll] using h
    exact hg
  | cons e rest ihl =>
    intro v w hsq hg h
    obtain ⟨s, d⟩ := e
    unfold assignAll at h
    by_cases hd : d ∈ digits
    · rw [if_pos hd] at h
      by_cases hok : (assign v s d).2 = true
      · rw [if_pos hok] at h
        exact ihl _ _ (fun e2 he2 => hsq e2 (List.mem_cons_of_mem _ he2))
          (assign_goodNE (hsq (s, d) (List.mem_cons_self _ _)) hok hg) h
      · rw [if_neg hok] at h
        exact Option.noConfusion h
    · rw [if_neg hd] at h
      exact ihl _ _ (fun e2 he2 => hsq e2 (List.mem_cons_of_mem _ he2)) hg h

/-- **C1**: For every puzzle string on which the exact solver `solve`
returns a value store rather than failure, every one of the 27 units of
the returned grid is a permutation of the digits 1-9: the `solved`
predicate holds on the returned store. -/
theorem c1_solve_solved :
    ∀ grid : List Char, ((solve grid).bind id).all (fun w => solved (some w)) = true := by
  intro grid
  unfold solve
  cases hpg : parse_grid grid with
  | none => rfl
  | some r =>
    cases r with
    | none => rfl
    | some v =>
      have hgood : GoodNE v := by
        unfold parse_grid at hpg
        cases hgv : grid_values grid with
        | none => rw [hgv] at hpg; exact Option.noConfusion hpg
        | some gv =>
          rw [hgv] at hpg
          injection hpg with hpg
          exact assignAll_goodNE gv initialStore v (grid_values_squares hgv)
            initialStore_goodNE hpg
      show ((search (some v)).bind id).all (fun w => solved (some w)) = true
      cases hs : search (some v) with
      | none => rfl
      | some r2 =>
        cases r2 with
        | none => rfl
        | some w =>
          have hsolved : solved (some w) = true := by
            apply searchGo_solved (10 * totalSize v + 20) (.run (some v)) w ?_ hgood
            unfold search at hs
            exact hs
          exact hsolved

/-! ## C5: a duplicated digit in a row is rejected while parsing -/

/-- Once some square `p` is pinned to `[d]`, a later `assign` of `d` to a
peer `q` of `p` must fail: `d` is no longer in `q`'s domain (there is no
pending conflict), so the assignment eliminates the whole nonempty domain
of `q` and hits a contradiction. -/
theorem assignAll_pinned :
    ∀ (l : List (String × Char)) (v : Store) (p q : String) (d : Char),
      (∀ e ∈ l, e.1 ∈ squares) → GoodNE v → v p = [d] → q ∈ peers p →
      (q, d) ∈ l → assignAll v l = none := by
  intro l
  induction l with
  | nil =>
    intro v p q d _ _ _ _ hmem
    exact absurd hmem (List.not_mem_nil _)
  | cons e rest ihl =>
    intro v p q d hsq hg hp hqp hmem
    obtain ⟨s, c⟩ := e
    rcases List.mem_cons.mp hmem with heq | hmem2
    · have hq1 : q = s := congrArg Prod.fst heq
      have hd1 : d = c := congrArg Prod.snd heq
      subst hq1
      subst hd1
      have hd : d ∈ digits :=
        (hg.1 p).subset (by rw [hp]; exact List.mem_singleton_self d)
      have hqs : q ∈ squares := hsq (q, d) (List.mem_cons_self _ _)
      unfold assignAll
      rw [if_pos hd]
      cases hok : (assign v q d).2 with
      | false => simp
      | true =>
        exfalso
        have hdq : d ∈ v q :=
          propagate_assign_mem (assign_propagate hqs hok) (hg.2.1 q)
        exact hg.2.2 p q ⟨hqp, d, hp, hdq⟩
    · have hss : s ∈ squares := hsq (s, c) (List.mem_cons_self _ _)
      have hrest : ∀ e2 ∈ rest, e2.1 ∈ squares :=
        fun e2 he2 => hsq e2 (List.mem_cons_of_mem _ he2)
      unfold assignAll
      by_cases hcd : c ∈ digits
      · rw [if_pos hcd]
        cases hok : (assign v s c).2 with
        | false => simp
        | true =>
          rw [if_pos rfl]
          exact ihl (assign v s c).1 p q d hrest (assign_goodNE hss hok hg)
            (assign_keeps_singleton hss hok hg hp) hqp hmem2
      · rw [if_neg hcd]
        exact ihl v p q d hrest hg hp hqp hmem2

/-- Two entries carrying the same digit on two mutually-peer squares make
the assignment loop of `parse_grid` fail, from any good store. -/
theorem assignAll_dup :
    ∀ (l : List (String × Char)) (v : Store) (p q : String) (d : Char),
      (∀ e ∈ l, e.1 ∈ squares) → GoodNE v →
      (p, d) ∈ l → (q, d) ∈ l → p ≠ q → q ∈ peers p → p ∈ peers q →
      d ∈ digits → assignAll v l = none := by
  intro l
  induction l with
  | nil =>
    intro v p q d _ _ hmem
    exact absurd hmem (List.not_mem_nil _)
  | cons e rest ihl =>
    intro v p q d hsq hg hpm hqm hne hqp hpq hd
    obtain ⟨s, c⟩ := e
    have hrest : ∀ e2 ∈ rest, e2.1 ∈ squares :=
      fun e2 he2 => hsq e2 (List.mem_cons_of_mem _ he2)
    by_cases hps : (p, d) = (s, c)
    · have hp1 : p = s := congrArg Prod.fst hps
      have hd1 : d = c := congrArg Prod.snd hps
      subst hp1
      subst hd1
      have hpsq : p ∈ squares := hsq (p, d) (List.mem_cons_self _ _)
      unfold assignAll
      rw [if_pos hd]
      cases hok : (assign v p d).2 with
      | false => simp
      | true =>
        rw [if_pos rfl]
        have hdmem : d ∈ v p :=
          propagate_assign_mem (assign_propagate hpsq hok) (hg.2.1 p)
        have hnd : (v p).Nodup := digits_nodup.sublist (hg.1 p)
        have hsing : (assign v p d).1 p = [d] :=
          propagate_assign_singleton (assign_propagate hpsq hok) hdmem hnd
        have hqrest : (q, d) ∈ rest := by
          rcases List.mem_cons.mp hqm with hh | hh
          · exact absurd (congrArg Prod.fst hh) (Ne.symm hne)
          · exact hh
        exact assignAll_pinned rest (assign v p d).1 p q d hrest
          (assign_goodNE hpsq hok hg) hsing hqp hqrest
    · by_cases hqs : (q, d) = (s, c)
      · have hq1 : q = s := congrArg Prod.fst hqs
        have hd1 : d = c := congrArg Prod.snd hqs
        subst hq1
        subst hd1
        have hqsq : q ∈ squares := hsq (q, d) (List.mem_cons_self _ _)
        unfold assignAll
        rw [if_pos hd]
        cases hok : (assign v q d).2 with
        | false => simp
        | true =>
          rw [if_pos rfl]
          have hdmem : d ∈ v q :=
            propagate_assign_mem (assign_propagate hqsq hok) (hg.2.1 q)
          have hnd : (v q).Nodup := digits_nodup.sublist (hg.1 q)
          have hsing : (assign v q d).1 q = [d] :=
            propagate_assign_singleton (assign_propagate hqsq hok) hdmem hnd
          have hprest : (p, d) ∈ rest := by
            rcases List.mem_cons.mp hpm with hh | hh
            · exact absurd hh hps
            · exact hh
          exact assignAll_pinned rest (assign v q d).1 q p d hrest
            (assign_goodNE hqsq hok hg) hsing hpq hprest
      · have hprest : (p, d) ∈ rest := by
          rcases List.mem_cons.mp hpm with hh | hh
          · exact absurd hh hps
          · exact hh
        have hqrest : (q, d) ∈ rest := by
          rcases List.mem_cons.mp hqm with hh | hh
          · exact absurd hh hqs
          · exact hh
        have hss : s ∈ squares := hsq (s, c) (List.mem_cons_self _ _)
        unfold assignAll
        by_cases hcd : c ∈ digits
        · rw [if_pos hcd]
          cases hok : (assign v s c).2 with
          | false => simp
          | true =>
            rw [if_pos rfl]
            exact ihl (assign v s c).1 p q d hrest (assign_goodNE hss hok hg)
              hprest hqrest hne hqp hpq hd
        · rw [if_neg hcd]
          exact ihl v p q d hrest hg hprest hqrest hne hqp hpq hd

/-- **C5**: For every puzzle string in which two cells of the same row are
pre-filled with the same digit, exact solving fails: the contradiction is
detected during the initial constraint application, `parse_grid` returns
`False`, so `search` receives `False` and `solve` returns failure
immediately, before any branching begins. -/
theorem c5_same_row_duplicate_fails (grid : List Char) (gv : List (String × Char))
    (s1 s2 : String) (d : Char) (u : List String)
    (hgv : grid_values grid = some gv)
    (h1 : (s1, d) ∈ gv) (h2 : (s2, d) ∈ gv) (hne : s1 ≠ s2)
    (hu : u ∈ rowUnits) (hs1 : s1 ∈ u) (hs2 : s2 ∈ u) (hd : d ∈ digits) :
    parse_grid grid = some none ∧ solve grid = some none := by
  have hrow : u ∈ unitlist := by
    have hm : u ∈ colUnits ++ rowUnits ++ boxUnits :=
      List.mem_append.mpr (Or.inl (List.mem_append.mpr (Or.inr hu)))
    exact hm
  have hp1 : s2 ∈ peers s1 := mem_peers_of_same_unit hrow hs1 hs2 (Ne.symm hne)
  have hp2 : s1 ∈ peers s2 := mem_peers_of_same_unit hrow hs2 hs1 hne
  have hnone : assignAll initialStore gv = none :=
    assignAll_dup gv initialStore s1 s2 d (grid_values_squares hgv)
      initialStore_goodNE h1 h2 hne hp1 hp2 hd
  constructor
  · unfold parse_grid
    rw [hgv]
    show some (assignAll initialStore gv) = some none
    rw [hnone]
  · unfold solve parse_grid
    rw [hgv]
    show (some (assignAll initialStore gv)).bind search = some none
    rw [hnone]
    rfl

/-- The concrete puzzle for the C5 witness: `'1'` in both A1 and A2, the
rest unfilled. -/
def c5grid : List Char := '1' :: '1' :: List.replicate 79 '.'

set_option maxRecDepth 1000000 in
set_option maxHeartbeats 2000000 in
/-- Witness for C5 at the concrete puzzle `c5grid`. -/
theorem c5_witness : parse_grid c5grid = some none ∧ solve c5grid = some none :=
  c5_same_row_duplicate_fails c5grid (squares.zip c5grid) "A1" "A2" '1'
    (cross ['A'] cols) (by decide) (by decide) (by decide) (by decide)
    (by decide) (by decide) (by decide) (by decide)

/-! ## C6: malformed input is rejected before the solving engines -/

/-- **C6**: For every raw input string that does not reduce to exactly 81
admissible characters (digits, `'0'`, `'.'`) after filtering the other
characters, grid parsing rejects the input with a distinguishable error
(`grid_values`'s assertion, the outer `none`) before any propagation or
search runs: `parse_grid` and `solve` forward the error without ever
calling `assign`. -/
theorem c6_malformed_rejected (grid : List Char)
    (h : (grid.filter (fun c => digits.contains c || c == '0' || c == '.')).length ≠ 81) :
    grid_values grid = none ∧ parse_grid grid = none ∧ solve grid = none := by
  have hgv : grid_values grid = none := by
    unfold grid_values
    rw [if_neg h]
  refine ⟨hgv, ?_, ?_⟩
  · unfold parse_grid
    rw [hgv]
  · unfold solve parse_grid
    rw [hgv]
    rfl

set_option maxRecDepth 1000000 in
/-- Witness for C6: an input of 80 admissible characters (one short) is
rejected before reaching propagation. -/
theorem c6_witness :
    ((List.replicate 80 '1').filter
        (fun c => digits.contains c || c == '0' || c == '.')).length ≠ 81 ∧
    grid_values (List.replicate 80 '1') = none ∧
    parse_grid (List.replicate 80 '1') = none ∧
    solve (List.replicate 80 '1') = none :=
  ⟨by decide, c6_malformed_rejected (List.replicate 80 '1') (by decide)⟩

/-! ## Local search (questions 4 and 5)

A fully-filled configuration maps each square to one character.  The
unseeded global random generator of the source is modelled by explicit
oracles: `rnd k` is the k-th `random.shuffle` outcome, `idxs k` the k-th
`random.choice(range(len(boxes)))`, and `draws k` the k-th outcome of the
annealing acceptance comparison against `random.random()`. -/

/-- A configuration: Python's `values` dict of single characters. -/
abbrev Config := String → Char

/-- `initialize_values(grid)` (source lines 53-56): `dict(zip(squares, grid))`.
The embedding returns `'?'` for keys Python would not bind. -/
def init_values (grid : List Char) : Config :=
  fun s => (((squares.zip grid).find? (fun e => e.1 == s)).map Prod.snd).getD '?'

/-- The loop of `fill_randomly(square)` (source lines 219-227): walk the
positions left to right; at each `'0'` put the first shuffled value not yet
present in the square.  `k` counts the remaining iterations
(`range(len(square))`), `i` is the current index. -/
def fillLoop (values : List Char) : List Char → Nat → Nat → List Char
  | square, _, 0 => square
  | square, i, k + 1 =>
    if square.getD i ' ' == '0' then
      if values.isEmpty then square  -- "No more values available, break"
      else
        match values.find? (fun d => !square.contains d) with
        | some d => fillLoop values (square.set i d) (i + 1) k
        | none => fillLoop values square (i + 1) k
    else fillLoop values square (i + 1) k

/-- `fill_randomly(square)` (source lines 214-228), with the shuffled
`values = ['1', ..., '9']` passed explicitly. -/
def fill_randomly (square values : List Char) : List Char :=
  fillLoop values square 0 square.length

/-- `boxes = list(units.values())` (source lines 281 and 327): one entry
per square in row-major order, each being `[column, row, box]`. -/
def boxesList : List (List (List String)) := squares.map units

/-- The indices at which `fill`'s `range(81)` loop acts (source lines
234-236): one representative square per 3×3 box. -/
def fillIdx : List Nat := [0, 3, 6, 29, 32, 35, 54, 57, 60]

/-- `fill(current_configuration, boxes)` (source lines 230-253), embedded
as the fold over the nine acting indices of its `range(81)` loop; the
other 72 iterations do nothing.  At the k-th acting index `i` the box
`boxes[i][2]` is read, refilled by `fill_randomly` with the k-th shuffle
`rnd k`, and written back key by key. -/
def fill (cfg : Config) (boxes : List (List (List String))) (rnd : Nat → List Char) : Config :=
  (fillIdx.enum).foldl (fun c ti =>
    let square_keys := (boxes.getD ti.2 []).getD 2 []
    let filled_square := fill_randomly (square_keys.map c) (rnd ti.1)
    (square_keys.zip filled_square).foldl
      (fun c2 kv => Function.update c2 kv.1 kv.2) c) cfg

/-- The inner double loop `for i in range(9): for j in range(i+1, 9)` of
`count_general_conflicts`, counting duplicate pairs among the nine
collected values (source lines 262-265 and 269-272), rendered
structurally: each value is paired against all later ones. -/
def pairScan : List Char → Nat
  | [] => 0
  | x :: rest => (rest.countP (fun y => x != '0' && x == y)) + pairScan rest

/-- `count_general_conflicts(configuration)` (source lines 255-273):
row duplicate pairs plus column duplicate pairs; a value equal to `'0'`
never opens a pair (`row_values[i] != '0'`).  `row + str(i)` for
`i in range(1, 10)` enumerates the columns `'1'..'9'`, i.e. `cols`. -/
def count_general_conflicts (cfg : Config) : Nat :=
  ((rows.map (fun r => pairScan (cols.map (fun c => cfg (String.mk [r, c]))))).sum) +
  ((cols.map (fun c => pairScan (rows.map (fun r => cfg (String.mk [r, c]))))).sum)

/-- `combinations(range(9), 2)` (source line 307), in itertools order. -/
def pairCombos : List (Nat × Nat) :=
  (List.range 9).flatMap (fun i => ((List.range 9).filter (fun j => i < j)).map (fun j => (i, j)))

/-- One neighbor of `find_best_neighbor` (source lines 308-313): read the
selected box, swap the two chosen positions, write the box back. -/
def swapNeighbor (cfg : Config) (square_keys : List String) (combo : Nat × Nat) : Config :=
  let square := square_keys.map cfg
  let swapped := (square.set combo.1 (square.getD combo.2 ' ')).set combo.2
    (square.getD combo.1 ' ')
  (square_keys.zip swapped).foldl (fun c2 kv => Function.update c2 kv.1 kv.2) cfg

/-- `find_best_neighbor(current_configuration, boxes)` (source lines
301-317); `square_index` stands for `random.choice(range(len(boxes)))`.
Python's `min(neighbors, key=count_general_conflicts)` keeps the first
minimum. -/
def find_best_neighbor (cfg : Config) (boxes : List (List (List String)))
    (square_index : Nat) : Config :=
  let square_keys := (boxes.getD square_index []).getD 2 []
  match pairCombos.map (fun combo => swapNeighbor cfg square_keys combo) with
  | [] => cfg  -- unreachable: `pairCombos` has 36 elements
  | n :: ns => ns.foldl (fun best x =>
      if count_general_conflicts x < count_general_conflicts best then x else best) n

/-- The loop of `apply_hill_climbing` (source lines 285-297): stop on zero
conflicts, move to the best neighbor of a random box while it strictly
improves, otherwise return the current configuration; at most 150
iterations. -/
def hcLoop (idxs : Nat → Nat) : Nat → Nat → Config → Config
  | _, 0, cfg => cfg
  | step, k + 1, cfg =>
    if count_general_conflicts cfg = 0 then cfg  -- "solved!"
    else
      if count_general_conflicts (find_best_neighbor cfg boxesList (idxs step)) <
          count_general_conflicts cfg then
        hcLoop idxs (step + 1) k (find_best_neighbor cfg boxesList (idxs step))
      else cfg

/-- `apply_hill_climbing(puzzle)` (source lines 278-299). -/
def apply_hill_climbing (puzzle : Config) (rnd : Nat → List Char) (idxs : Nat → Nat) : Config :=
  hcLoop idxs 0 150 (fill puzzle boxesList rnd)

/-- The annealing acceptance test (source line 353):
`deltaE < 0 or random.random() < math.exp(deltaE / temperature)`, the
floats idealised as real numbers, `r` being the drawn `random.random()`
value. -/
def acceptMove (deltaE T r : ℝ) : Prop :=
  deltaE < 0 ∨ r < Real.exp (deltaE / T)

/-- The loop of `apply_hill_climbing_annealing` (source lines 333-360).
`draws step` models the Boolean outcome of the comparison
`random.random() < math.exp(deltaE / temperature)` (see `acceptMove`);
the geometric temperature decay is kept exactly, in `ℚ`. -/
def saLoop (idxs : Nat → Nat) (draws : Nat → Bool) (alpha : ℚ) :
    Nat → Nat → ℚ → Config → Config → Config
  | 0, _, _, _, best => best
  | k + 1, step, temperature, cur, best =>
    if alpha * temperature = 0 then best  -- temperature-zero early exit
    else
      if ((count_general_conflicts (find_best_neighbor cur boxesList (idxs step)) : Int) -
          (count_general_conflicts cur : Int) < 0) || draws step then
        if count_general_conflicts (find_best_neighbor cur boxesList (idxs step)) = 0 then
          find_best_neighbor cur boxesList (idxs step)  -- "Solved", break
        else
          saLoop idxs draws alpha k (step + 1) (alpha * temperature)
            (find_best_neighbor cur boxesList (idxs step))
            (find_best_neighbor cur boxesList (idxs step))
      else
        if count_general_conflicts cur = 0 then best  -- break on best_conflict == 0
        else saLoop idxs draws alpha k (step + 1) (alpha * temperature) cur best

/-- `apply_hill_climbing_annealing(puzzle, initial_temperature=1.15,
alpha=0.99)` (source lines 322-363): fill the boxes randomly, then run 500
annealing iterations starting at `step = 1`. -/
def apply_hill_climbing_annealing (puzzle : Config) (rnd : Nat → List Char)
    (idxs : Nat → Nat) (draws : Nat → Bool)
    (initial_temperature alpha : ℚ) : Config :=
  saLoop idxs draws alpha 500 1 initial_temperature
    (fill puzzle boxesList rnd) (fill puzzle boxesList rnd)

/-! ## C2: the annealing acceptance rule -/

/-- Counterexample to C2 as stated: at the concrete worsening move
`deltaE = 1` with temperature `T = 1`, no admissible draw `r ∈ [0, 1)`
rejects the move, because `r < 1 ≤ exp(1/1)`.  This refutes "for every
worsening neighbor there exist values of the random draw for which the
uphill move is rejected" — and with it the claim that the acceptance
probability of an uphill move shrinks below 1 as T decays. -/
theorem c2_counterexample :
    ¬ ∃ r : ℝ, 0 ≤ r ∧ r < 1 ∧ ¬ acceptMove 1 1 r := by
  rintro ⟨r, -, h1, hacc⟩
  apply hacc
  right
  calc r < 1 := h1
    _ ≤ Real.exp (1 / 1) := Real.one_le_exp (by norm_num)

/-- **C2** (amended): with current temperature `T > 0`, the best box-local
neighbor is accepted with certainty when it strictly improves the
conflict objective (`deltaE < 0`), and otherwise accepted exactly when the
draw satisfies `r < exp(deltaE / T)`; since `exp(deltaE / T) ≥ 1` whenever
`deltaE ≥ 0` and `T > 0`, every worsening (or equal-value) neighbor is
accepted for every admissible draw `r ∈ [0, 1)` as well — an uphill move
is never rejected. -/
theorem c2_acceptance (deltaE T r : ℝ) :
    (deltaE < 0 → acceptMove deltaE T r) ∧
    (0 < T → 0 ≤ deltaE → 0 ≤ r → r < 1 → acceptMove deltaE T r) := by
  constructor
  · intro h
    exact Or.inl h
  · intro hT hdE h0 h1
    right
    calc r < 1 := h1
      _ ≤ Real.exp (deltaE / T) := Real.one_le_exp (div_nonneg hdE hT.le)

/-- Witness for C2 (amended): an improving move and a worsening move, both
accepted at `T = 1` with the draw `r = 1/2`. -/
theorem c2_witness : acceptMove (-1) 1 (1/2) ∧ acceptMove 1 1 (1/2) :=
  ⟨(c2_acceptance (-1) 1 (1/2)).1 neg_one_lt_zero,
   (c2_acceptance 1 1 (1/2)).2 one_pos zero_le_one one_half_pos.le one_half_lt_one⟩

/-! ## C4: the conflict objective -/

/-- Each unordered pair of distinct cells of a unit, listed once. -/
def cellPairs : List String → List (String × String)
  | [] => []
  | x :: rest => rest.map (fun y => (x, y)) ++ cellPairs rest

/-- The objective exactly as the claim words it: unordered pairs of
distinct cells in the same row holding equal non-placeholder digit values,
plus the same for columns; a placeholder (`'0'` or `'.'`) never
contributes, so both members must hold a digit. -/
def specConflicts (cfg : Config) : Nat :=
  ((rowUnits.map (fun u => ((cellPairs u).filter (fun pq =>
    cfg pq.1 == cfg pq.2 && digits.contains (cfg pq.1))).length)).sum) +
  ((colUnits.map (fun u => ((cellPairs u).filter (fun pq =>
    cfg pq.1 == cfg pq.2 && digits.contains (cfg pq.1))).length)).sum)

/-- The objective the code actually computes, in the claim's pair-counting
style: pairs of equal values other than `'0'` count — `'.'` included. -/
def specConflictsAmended (cfg : Config) : Nat :=
  ((rowUnits.map (fun u => ((cellPairs u).filter (fun pq =>
    cfg pq.1 == cfg pq.2 && cfg pq.1 != '0')).length)).sum) +
  ((colUnits.map (fun u => ((cellPairs u).filter (fun pq =>
    cfg pq.1 == cfg pq.2 && cfg pq.1 != '0')).length)).sum)

theorem pairScan_cellPairs (cfg : Config) :
    ∀ u : List String, pairScan (u.map cfg) =
      ((cellPairs u).filter (fun pq => cfg pq.1 == cfg pq.2 && cfg pq.1 != '0')).length := by
  intro u
  induction u with
  | nil => rfl
  | cons x rest ih =>
    rw [List.map_cons]
    show (rest.map cfg).countP (fun y => cfg x != '0' && cfg x == y) +
      pairScan (rest.map cfg) = _
    have h1 : (rest.map cfg).countP (fun y => cfg x != '0' && cfg x == y) =
        ((rest.map (fun y => (x, y))).filter
          (fun pq => cfg pq.1 == cfg pq.2 && cfg pq.1 != '0')).length := by
      rw [← List.countP_eq_length_filter, List.countP_map, List.countP_map]
      apply List.countP_congr
      intro y _
      simp [Function.comp, Bool.and_comm]
    rw [show cellPairs (x :: rest) = rest.map (fun y => (x, y)) ++ cellPairs rest from rfl,
      List.filter_append, List.length_append, ← h1, ← ih]

theorem flatMap_single {α β : Type} (f : α → β) :
    ∀ l : List α, l.flatMap (fun a => [f a]) = l.map f := by
  intro l
  induction l with
  | nil => rfl
  | cons a l ih => simp [List.flatMap_cons, ih]

theorem cross_single_row (r : Char) :
    cross [r] cols = cols.map (fun c => String.mk [r, c]) := by
  simp [cross]

theorem cross_single_col (c : Char) :
    cross rows [c] = rows.map (fun r => String.mk [r, c]) := by
  show rows.flatMap (fun a => List.map (fun b => String.mk [a, b]) [c]) = _
  simp only [List.map_cons, List.map_nil]
  exact flatMap_single (fun r => String.mk [r, c]) rows

/-- **C4** (amended): for every fully- or partially-filled configuration,
`count_general_conflicts(configuration)` equals the number of unordered
pairs of distinct cells in the same row holding equal values other than
`'0'`, plus the number of such pairs in the same column.  (`'0'` never
contributes a conflict; a `'.'` placeholder, however, does pair up — see
the counterexample for the claim's original placeholder clause.) -/
theorem c4_row_part (cfg : Config) (r : Char) :
    pairScan (cols.map (fun c => cfg (String.mk [r, c]))) =
      ((cellPairs (cross [r] cols)).filter
        (fun pq => cfg pq.1 == cfg pq.2 && cfg pq.1 != '0')).length := by
  rw [cross_single_row, ← pairScan_cellPairs, List.map_map]
  rfl

theorem c4_col_part (cfg : Config) (c : Char) :
    pairScan (rows.map (fun r => cfg (String.mk [r, c]))) =
      ((cellPairs (cross rows [c])).filter
        (fun pq => cfg pq.1 == cfg pq.2 && cfg pq.1 != '0')).length := by
  rw [cross_single_col, ← pairScan_cellPairs, List.map_map]
  rfl

theorem c4_conflicts_eq (cfg : Config) :
    count_general_conflicts cfg = specConflictsAmended cfg := by
  have hrow : (rowUnits.map (fun u => ((cellPairs u).filter (fun pq =>
      cfg pq.1 == cfg pq.2 && cfg pq.1 != '0')).length)).sum =
      (rows.map (fun r => pairScan (cols.map (fun c => cfg (String.mk [r, c]))))).sum := by
    unfold rowUnits
    rw [List.map_map]
    exact congrArg List.sum (List.map_congr_left (fun r _ => (c4_row_part cfg r).symm))
  have hcol : (colUnits.map (fun u => ((cellPairs u).filter (fun pq =>
      cfg pq.1 == cfg pq.2 && cfg pq.1 != '0')).length)).sum =
      (cols.map (fun c => pairScan (rows.map (fun r => cfg (String.mk [r, c]))))).sum := by
    unfold colUnits
    rw [List.map_map]
    exact congrArg List.sum (List.map_congr_left (fun c _ => (c4_col_part cfg c).symm))
  unfold count_general_conflicts specConflictsAmended
  rw [hrow, hcol]

set_option maxRecDepth 100000 in
set_option maxHeartbeats 2000000 in
/-- Counterexample to C4 as stated: on the everywhere-`'.'` configuration
— a partially-filled configuration with no digits at all — the code counts
648 conflicts (every same-row and every same-column pair of `'.'` cells),
while the claim's objective counts 0, `'.'` being a placeholder. -/
theorem c4_counterexample :
    count_general_conflicts (fun _ => '.') ≠ specConflicts (fun _ => '.') := by
  decide

/-! ## Writing a box back into a configuration

Both `fill` and the neighbor generation write a 9-value list back to the
9 keys of a box with `for key, value in zip(square_keys, ...)`. -/

theorem writeKeys_not_mem :
    ∀ (keys : List String) (vals : List Char) (c : Config) (t : String),
      t ∉ keys →
      ((keys.zip vals).foldl (fun c2 kv => Function.update c2 kv.1 kv.2) c) t = c t := by
  intro keys
  induction keys with
  | nil => intro vals c t _; rfl
  | cons k ks ih =>
    intro vals c t ht
    cases vals with
    | nil => rfl
    | cons v vs =>
      have htk : t ≠ k := fun h => ht (h ▸ List.mem_cons_self k ks)
      have htks : t ∉ ks := fun h => ht (List.mem_cons_of_mem k h)
      show ((ks.zip vs).foldl (fun c2 kv => Function.update c2 kv.1 kv.2)
        (Function.update c k v)) t = c t
      rw [ih vs (Function.update c k v) t htks]
      exact Function.update_noteq htk v c

theorem writeKeys_get :
    ∀ (keys : List String) (vals : List Char) (c : Config) (i : Nat)
      (hi : i < keys.length) (hv : i < vals.length),
      keys.Nodup →
      ((keys.zip vals).foldl (fun c2 kv => Function.update c2 kv.1 kv.2) c)
        (keys.get ⟨i, hi⟩) = vals.get ⟨i, hv⟩ := by
  intro keys
  induction keys with
  | nil => intro vals c i hi; simp at hi
  | cons k ks ih =>
    intro vals c i hi hv hnd
    cases vals with
    | nil => simp at hv
    | cons v vs =>
      rw [List.nodup_cons] at hnd
      cases i with
      | zero =>
        show ((ks.zip vs).foldl (fun c2 kv => Function.update c2 kv.1 kv.2)
          (Function.update c k v)) k = v
        rw [writeKeys_not_mem ks vs (Function.update c k v) k hnd.1]
        exact Function.update_same k v c
      | succ j =>
        have hj : j < ks.length := by simpa using hi
        have hjv : j < vs.length := by simpa using hv
        exact ih vs (Function.update c k v) j hj hjv hnd.2

/-! ## C10: the shape of a generated neighbor -/

/-- The box read at index `i` of `boxes = list(units.values())`. -/
def boxKeys (i : Nat) : List String := (boxesList.getD i []).getD 2 []

set_option maxRecDepth 100000 in
theorem boxKeys_mem_boxUnits : ∀ i, i < 81 → boxKeys i ∈ boxUnits := by decide

theorem boxUnits_subset_unitlist {u : List String} (h : u ∈ boxUnits) : u ∈ unitlist := by
  have hm : u ∈ colUnits ++ rowUnits ++ boxUnits :=
    List.mem_append.mpr (Or.inr h)
  exact hm

theorem boxKeys_nodup {i : Nat} (h : i < 81) : (boxKeys i).Nodup :=
  unitlist_nodup _ (boxUnits_subset_unitlist (boxKeys_mem_boxUnits i h))

theorem boxKeys_length {i : Nat} (h : i < 81) : (boxKeys i).length = 9 :=
  unitlist_length_nine _ (boxUnits_subset_unitlist (boxKeys_mem_boxUnits i h))

theorem pairCombos_lt : ∀ combo ∈ pairCombos, combo.1 < combo.2 ∧ combo.2 < 9 := by decide

theorem pairCombos_ne_nil : pairCombos ≠ [] := by decide

/-- What one generated neighbor does, cell by cell: the two selected
positions of the box exchange their values, everything else is
untouched. -/
theorem swapNeighbor_spec (cfg : Config) (keys : List String) (a b : Nat)
    (hnd : keys.Nodup) (hab : a < b) (hb : b < keys.length) :
    (∀ (ha2 : a < keys.length) (hb2 : b < keys.length),
      swapNeighbor cfg keys (a, b) (keys.get ⟨a, ha2⟩) = cfg (keys.get ⟨b, hb2⟩) ∧
      swapNeighbor cfg keys (a, b) (keys.get ⟨b, hb2⟩) = cfg (keys.get ⟨a, ha2⟩)) ∧
    (∀ t, (∀ (ha2 : a < keys.length), t ≠ keys.get ⟨a, ha2⟩) →
      (∀ (hb2 : b < keys.length), t ≠ keys.get ⟨b, hb2⟩) →
      swapNeighbor cfg keys (a, b) t = cfg t) := by
  have ha : a < keys.length := lt_trans hab hb
  have hmaplen : (keys.map cfg).length = keys.length := List.length_map keys cfg
  have hslen : ((keys.map cfg).set a ((keys.map cfg).getD b ' ')).length = keys.length := by
    rw [List.length_set, hmaplen]
  have hswlen : (((keys.map cfg).set a ((keys.map cfg).getD b ' ')).set b
      ((keys.map cfg).getD a ' ')).length = keys.length := by
    rw [List.length_set, hslen]
  have hgetb : (keys.map cfg).getD b ' ' = cfg (keys.get ⟨b, hb⟩) := by
    rw [List.getD_eq_get _ _ (by rwa [hmaplen])]
    exact List.get_map cfg
  have hgeta : (keys.map cfg).getD a ' ' = cfg (keys.get ⟨a, ha⟩) := by
    rw [List.getD_eq_get _ _ (by rwa [hmaplen])]
    exact List.get_map cfg
  have hab2 : a ≠ b := Nat.ne_of_lt hab
  -- value of the swapped list at each position
  have hswget : ∀ (i : Nat) (hi : i < keys.length),
      ((((keys.map cfg).set a ((keys.map cfg).getD b ' ')).set b
        ((keys.map cfg).getD a ' '))).get ⟨i, by rwa [hswlen]⟩ =
      (if i = b then cfg (keys.get ⟨a, ha⟩)
       else if i = a then cfg (keys.get ⟨b, hb⟩)
       else cfg (keys.get ⟨i, hi⟩)) := by
    intro i hi
    by_cases hib : i = b
    · subst hib
      rw [if_pos rfl, ← hgeta]
      exact List.get_set_eq _
    · rw [if_neg hib]
      rw [List.get_set_ne (fun h => hib h.symm) _]
      by_cases hia : i = a
      · subst hia
        rw [if_pos rfl, ← hgetb]
        exact List.get_set_eq _
      · rw [if_neg hia]
        rw [List.get_set_ne (fun h => hia h.symm) _]
        exact List.get_map cfg
  constructor
  · intro ha2 hb2
    constructor
    · show ((keys.zip _).foldl (fun c2 kv => Function.update c2 kv.1 kv.2) cfg)
        (keys.get ⟨a, ha2⟩) = cfg (keys.get ⟨b, hb2⟩)
      rw [writeKeys_get keys _ cfg a ha2 (by rwa [hswlen]) hnd]
      rw [hswget a ha]
      rw [if_neg hab2, if_pos rfl]
    · show ((keys.zip _).foldl (fun c2 kv => Function.update c2 kv.1 kv.2) cfg)
        (keys.get ⟨b, hb2⟩) = cfg (keys.get ⟨a, ha2⟩)
      rw [writeKeys_get keys _ cfg b hb2 (by rwa [hswlen]) hnd]
      rw [hswget b hb]
      rw [if_pos rfl]
  · intro t hta htb
    by_cases htk : t ∈ keys
    · obtain ⟨⟨i, hi⟩, rfl⟩ := List.mem_iff_get.mp htk
      have hia : i ≠ a := by
        intro h
        subst h
        exact hta hi rfl
      have hib : i ≠ b := by
        intro h
        subst h
        exact htb hi rfl
      show ((keys.zip _).foldl (fun c2 kv => Function.update c2 kv.1 kv.2) cfg)
        (keys.get ⟨i, hi⟩) = cfg (keys.get ⟨i, hi⟩)
      rw [writeKeys_get keys _ cfg i hi (by rwa [hswlen]) hnd]
      rw [hswget i hi]
      rw [if_neg hib, if_neg hia]
    · exact writeKeys_not_mem keys _ cfg t htk

theorem foldl_minConf_mem :
    ∀ (ns : List Config) (n : Config),
      (ns.foldl (fun best x =>
        if count_general_conflicts x < count_general_conflicts best then x else best) n) ∈
        n :: ns := by
  intro ns
  induction ns with
  | nil => intro n; exact List.mem_singleton_self n
  | cons x xs ih =>
    intro n
    rw [List.foldl_cons]
    have hm := ih (if count_general_conflicts x < count_general_conflicts n then x else n)
    rcases List.mem_cons.mp hm with he | hm2
    · rw [he]
      by_cases hc : count_general_conflicts x < count_general_conflicts n
      · rw [if_pos hc]; exact List.mem_cons_of_mem n (List.mem_cons_self x xs)
      · rw [if_neg hc]; exact List.mem_cons_self n _
    · exact List.mem_cons_of_mem n (List.mem_cons_of_mem x hm2)

/-- The configuration returned by `find_best_neighbor` is one of the 36
box-local swap neighbors. -/
theorem find_best_neighbor_mem (cfg : Config) (idx : Nat) :
    ∃ combo ∈ pairCombos,
      find_best_neighbor cfg boxesList idx = swapNeighbor cfg (boxKeys idx) combo := by
  have hfb : find_best_neighbor cfg boxesList idx =
      (match pairCombos.map (fun combo => swapNeighbor cfg (boxKeys idx) combo) with
      | [] => cfg
      | n :: ns => ns.foldl (fun best x =>
          if count_general_conflicts x < count_general_conflicts best then x else best) n) := rfl
  rw [hfb]
  cases hn : pairCombos.map (fun combo => swapNeighbor cfg (boxKeys idx) combo) with
  | nil => exact absurd (List.map_eq_nil_iff.mp hn) pairCombos_ne_nil
  | cons n ns =>
    have hmem := foldl_minConf_mem ns n
    rw [← hn] at hmem
    obtain ⟨combo, hc, he⟩ := List.mem_map.mp hmem
    exact ⟨combo, hc, he.symm⟩

/-- The returned neighbor swaps two cells of the selected box and leaves
every other cell unchanged. -/
theorem neighbor_swap_shape (cfg : Config) (idx : Nat) (hidx : idx < 81) :
    ∃ p q, p ∈ boxKeys idx ∧ q ∈ boxKeys idx ∧
      find_best_neighbor cfg boxesList idx p = cfg q ∧
      find_best_neighbor cfg boxesList idx q = cfg p ∧
      ∀ t, t ≠ p → t ≠ q → find_best_neighbor cfg boxesList idx t = cfg t := by
  obtain ⟨combo, hc, he⟩ := find_best_neighbor_mem cfg idx
  obtain ⟨a, b⟩ := combo
  obtain ⟨hab, hb9⟩ := pairCombos_lt (a, b) hc
  have hlen := boxKeys_length hidx
  have hnd := boxKeys_nodup hidx
  have hb : b < (boxKeys idx).length := by rwa [hlen]
  have ha : a < (boxKeys idx).length := lt_trans hab hb
  obtain ⟨hswap, hframe⟩ := swapNeighbor_spec cfg (boxKeys idx) a b hnd hab hb
  refine ⟨(boxKeys idx).get ⟨a, ha⟩, (boxKeys idx).get ⟨b, hb⟩,
    List.get_mem _ _ _, List.get_mem _ _ _, ?_, ?_, ?_⟩
  · rw [he]; exact (hswap ha hb).1
  · rw [he]; exact (hswap ha hb).2
  · intro t hta htb
    rw [he]
    exact hframe t (fun _ => hta) (fun _ => htb)

/-- **C10**: For every configuration and every randomly selected box
index, `find_best_neighbor` returns a configuration that differs from its
input in at most two cells; both lie inside the single selected 3×3 box
and hold each other's previous values (a swap), and every cell outside
those two is unchanged.  No cell of the box is exempt: pre-filled clue
cells are swapped like any other cell (the swap positions range over all
36 pairs of box positions). -/
theorem c10_neighbor_is_box_swap (cfg : Config) (idx : Nat) (hidx : idx < 81) :
    ∃ p q, p ∈ boxKeys idx ∧ q ∈ boxKeys idx ∧
      find_best_neighbor cfg boxesList idx p = cfg q ∧
      find_best_neighbor cfg boxesList idx q = cfg p ∧
      ∀ t, t ≠ p → t ≠ q → find_best_neighbor cfg boxesList idx t = cfg t :=
  neighbor_swap_shape cfg idx hidx

/-! ## C3: the box-permutation invariant of local search -/

/-- The box `u` of `cfg` holds each digit 1-9 exactly once. -/
def boxPerm (cfg : Config) (u : List String) : Bool := decide ((u.map cfg).Perm digits)

/-- Every 3×3 box of `cfg` is a permutation of the digits. -/
def boxesOk (cfg : Config) : Bool := boxUnits.all (fun u => boxPerm cfg u)

/-- Setting a `'0'` cell to a digit adds that digit to the filtered
(non-`'0'`) content of the square, as multisets. -/
theorem filter_set_zero :
    ∀ (l : List Char) (i : Nat) (d : Char), i < l.length → l.getD i ' ' = '0' → d ≠ '0' →
      ((l.set i d).filter (fun x => x != '0')).Perm
        (d :: l.filter (fun x => x != '0')) := by
  intro l
  induction l with
  | nil => intro i d hi; simp at hi
  | cons x xs ih =>
    intro i d hi h0 hd
    cases i with
    | zero =>
      have hx : x = '0' := by simpa using h0
      subst hx
      show ((d :: xs).filter (fun x2 => x2 != '0')).Perm _
      rw [List.filter_cons_of_pos (by simpa using hd),
        List.filter_cons_of_neg (by simp)]
    | succ j =>
      have hj : j < xs.length := by simpa using hi
      have h0j : xs.getD j ' ' = '0' := by simpa using h0
      show ((x :: xs.set j d).filter (fun x2 => x2 != '0')).Perm _
      by_cases hx : x = '0'
      · subst hx
        rw [List.filter_cons_of_neg (by simp), List.filter_cons_of_neg (by simp)]
        exact ih j d hj h0j hd
      · rw [List.filter_cons_of_pos (by simpa using hx),
          List.filter_cons_of_pos (by simpa using hx)]
        exact ((ih j d hj h0j hd).cons x).trans (List.Perm.swap d x _)

theorem fillLoop_succ (values square : List Char) (i k : Nat) :
    fillLoop values square i (k + 1) =
      (if square.getD i ' ' == '0' then
        if values.isEmpty then square
        else match values.find? (fun d => !square.contains d) with
          | some d => fillLoop values (square.set i d) (i + 1) k
          | none => fillLoop values square (i + 1) k
      else fillLoop values square (i + 1) k) := rfl

theorem fillLoop_length (values : List Char) :
    ∀ (k : Nat) (square : List Char) (i : Nat),
      (fillLoop values square i k).length = square.length := by
  intro k
  induction k with
  | zero => intro square i; rfl
  | succ k ih =>
    intro square i
    rw [fillLoop_succ]
    by_cases h0 : (square.getD i ' ' == '0') = true
    · rw [if_pos h0]
      by_cases he : values.isEmpty = true
      · rw [if_pos he]
      · rw [if_neg he]
        cases hf : values.find? (fun d => !square.contains d) with
        | some d => rw [ih (square.set i d) (i + 1), List.length_set]
        | none => rw [ih square (i + 1)]
    · rw [if_neg h0]
      exact ih square (i + 1)

/-- The invariant of `fill_randomly`'s loop: entries are `'0'` or digits,
the digit entries are pairwise distinct, and positions already visited are
no longer `'0'`. -/
theorem fillLoop_invariant (values : List Char) (hvals : values.Perm digits) :
    ∀ (k : Nat) (square : List Char) (i : Nat),
      square.length = 9 → i + k = 9 →
      (∀ x ∈ square, x = '0' ∨ x ∈ digits) →
      ((square.filter (fun x => x != '0')).Nodup) →
      (∀ j, j < i → square.getD j ' ' ≠ '0') →
      ((∀ x ∈ fillLoop values square i k, x = '0' ∨ x ∈ digits) ∧
       (((fillLoop values square i k).filter (fun x => x != '0')).Nodup) ∧
       (∀ j, j < 9 → (fillLoop values square i k).getD j ' ' ≠ '0')) := by
  intro k
  induction k with
  | zero =>
    intro square i hlen hik hmem hnd hpref
    refine ⟨hmem, hnd, ?_⟩
    intro j hj
    exact hpref j (by omega)
  | succ k ih =>
    intro square i hlen hik hmem hnd hpref
    have hi9 : i < 9 := by omega
    have hi : i < square.length := by omega
    rw [fillLoop_succ]
    by_cases h0 : (square.getD i ' ' == '0') = true
    · have h0e : square.getD i ' ' = '0' := by simpa using h0
      rw [if_pos h0]
      have hvne : values.isEmpty ≠ true := by
        have : values.length = 9 := by
          rw [hvals.length_eq]; rfl
        simp [List.isEmpty_iff]
        intro hn
        rw [hn] at this
        exact absurd this (by simp)
      rw [if_neg hvne]
      cases hf : values.find? (fun d => !square.contains d) with
      | none =>
        exfalso
        have hall : ∀ d ∈ values, square.contains d := by
          intro d hdv
          have := List.find?_eq_none.mp hf d hdv
          simpa using this
        have hdig : ∀ d ∈ digits, d ∈ square := by
          intro d hdd
          have hdv : d ∈ values := (hvals.mem_iff).mpr hdd
          simpa [List.elem_iff] using hall d hdv
        have h0mem : '0' ∈ square := by
          rw [← h0e]
          rw [List.getD_eq_get _ _ hi]
          exact List.get_mem square i hi
        have hsub : digits.toFinset ⊆ square.toFinset.erase '0' := by
          intro d hdd
          rw [List.mem_toFinset] at hdd
          refine Finset.mem_erase.mpr ⟨?_, List.mem_toFinset.mpr (hdig d hdd)⟩
          intro hh
          rw [hh] at hdd
          exact absurd hdd (by decide)
        have hc1 : digits.toFinset.card = 9 := by decide
        have hc2 : (square.toFinset.erase '0').card ≤ 8 := by
          rw [Finset.card_erase_of_mem (List.mem_toFinset.mpr h0mem)]
          have := square.toFinset_card_le
          omega
        have := Finset.card_le_card hsub
        omega
      | some d =>
        have hdv : d ∈ values := List.mem_of_find?_eq_some hf
        have hdd : d ∈ digits := (hvals.mem_iff).mp hdv
        have hdns : d ∉ square := by
          have := List.find?_some hf
          simpa [List.elem_iff] using this
        have hd0 : d ≠ '0' := by
          intro hh
          rw [hh] at hdd
          exact absurd hdd (by decide)
        have hperm := filter_set_zero square i d hi h0e hd0
        apply ih (square.set i d) (i + 1)
        · rw [List.length_set]; exact hlen
        · omega
        · intro x hx
          rcases List.mem_or_eq_of_mem_set hx with hx2 | rfl
          · exact hmem x hx2
          · exact Or.inr hdd
        · rw [hperm.nodup_iff]
          rw [List.nodup_cons]
          refine ⟨fun hc => hdns (List.mem_of_mem_filter hc), hnd⟩
        · intro j hj
          by_cases hji : j = i
          · subst hji
            rw [List.getD_eq_get _ _ (by rw [List.length_set]; exact hi)]
            rw [List.get_set_eq _]
            exact hd0
          · have hj2 : j < i := by omega
            rw [List.getD_eq_get _ _ (by rw [List.length_set]; omega)]
            rw [List.get_set_ne (fun hh => hji hh.symm) _]
            rw [← List.getD_eq_get _ _ (by omega : j < square.length)]
            exact hpref j hj2
    · rw [if_neg h0]
      apply ih square (i + 1) hlen (by omega) hmem hnd
      intro j hj
      by_cases hji : j = i
      · subst hji
        simpa using h0
      · exact hpref j (by omega)

/-- `fill_randomly` on a 9-cell box whose entries are `'0'` or pairwise
distinct digits, with a shuffled permutation of the digits, returns a
permutation of the digits. -/
theorem fill_randomly_perm (square values : List Char)
    (hlen : square.length = 9) (hvals : values.Perm digits)
    (hmem : ∀ x ∈ square, x = '0' ∨ x ∈ digits)
    (hnd : (square.filter (fun x => x != '0')).Nodup) :
    (fill_randomly square values).Perm digits := by
  have hinv := fillLoop_invariant values hvals square.length square 0 hlen
    (by omega) hmem hnd (by omega)
  obtain ⟨hm, hn, hz⟩ := hinv
  have hrl : (fillLoop values square 0 square.length).length = 9 := by
    rw [fillLoop_length]; exact hlen
  have hnozero : ∀ x ∈ fillLoop values square 0 square.length, x ≠ '0' := by
    intro x hx hx0
    subst hx0
    obtain ⟨⟨j, hj⟩, hget⟩ := List.mem_iff_get.mp hx
    apply hz j (by omega)
    rw [List.getD_eq_get _ _ hj]
    exact hget
  have hdigs : ∀ x ∈ fillLoop values square 0 square.length, x ∈ digits := by
    intro x hx
    rcases hm x hx with h | h
    · exact absurd h (hnozero x hx)
    · exact h
  have hfe : (fillLoop values square 0 square.length).filter (fun x => x != '0') =
      fillLoop values square 0 square.length := by
    apply List.filter_eq_self.mpr
    intro x hx
    simpa using hnozero x hx
  rw [hfe] at hn
  -- nodup, subset of digits, same length: equal as finsets, hence a permutation
  have hsub : (fillLoop values square 0 square.length).toFinset ⊆ digits.toFinset := by
    intro x hx
    rw [List.mem_toFinset] at hx ⊢
    exact hdigs x hx
  have hfeq : (fillLoop values square 0 square.length).toFinset = digits.toFinset := by
    apply Finset.eq_of_subset_of_card_le hsub
    rw [List.toFinset_card_of_nodup hn, List.toFinset_card_of_nodup digits_nodup]
    rw [hrl]
    rfl
  exact List.perm_of_nodup_nodup_toFinset_eq hn digits_nodup hfeq

/-- One step of `fill`'s loop at an acting index: refill the box read at
`boxes[i][2]` and write it back. -/
def fillStep (rnd : Nat → List Char) (c : Config) (ti : Nat × Nat) : Config :=
  ((boxKeys ti.2).zip
    (fill_randomly ((boxKeys ti.2).map c) (rnd ti.1))).foldl
    (fun c2 kv => Function.update c2 kv.1 kv.2) c

theorem fill_eq_foldl (cfg : Config) (rnd : Nat → List Char) :
    fill cfg boxesList rnd = (fillIdx.enum).foldl (fillStep rnd) cfg := rfl

set_option maxRecDepth 100000 in
theorem fillIdx_boxes_mem : ∀ ti ∈ fillIdx.enum, boxKeys ti.2 ∈ boxUnits := by decide

set_option maxRecDepth 100000 in
theorem fillIdx_boxes_pairwise :
    (fillIdx.enum).Pairwise (fun a b2 => boxKeys a.2 ≠ boxKeys b2.2) := by decide

set_option maxRecDepth 100000 in
theorem fillIdx_boxes_cover : ∀ u ∈ boxUnits, ∃ ti ∈ fillIdx.enum, boxKeys ti.2 = u := by
  decide

set_option maxRecDepth 100000 in
theorem boxUnits_disjoint :
    ∀ u1 ∈ boxUnits, ∀ u2 ∈ boxUnits, u1 ≠ u2 → ∀ x ∈ u1, x ∉ u2 := by decide

theorem boxUnits_nodup {u : List String} (h : u ∈ boxUnits) : u.Nodup :=
  unitlist_nodup u (boxUnits_subset_unitlist h)

theorem boxUnits_length {u : List String} (h : u ∈ boxUnits) : u.length = 9 :=
  unitlist_length_nine u (boxUnits_subset_unitlist h)

/-- Writing a 9-value list to the 9 keys of a box makes the box read back
exactly that list. -/
theorem writeKeys_map {keys : List String} {vals : List Char} (c : Config)
    (hnd : keys.Nodup) (hlen : keys.length = vals.length) :
    keys.map ((keys.zip vals).foldl (fun c2 kv => Function.update c2 kv.1 kv.2) c) = vals := by
  apply List.ext_get (by rw [List.length_map]; exact hlen)
  intro n h1 h2
  rw [List.get_map]
  exact writeKeys_get keys vals c n (by simpa using h1) h2 hnd

/-- Running `fill`'s loop over steps whose boxes are pairwise distinct
turns each of those boxes into a permutation of the digits, and leaves
every cell outside them untouched. -/
theorem fillFold_spec (puzzle : Config) (rnd : Nat → List Char)
    (hrnd : ∀ k, (rnd k).Perm digits)
    (hp : ∀ u ∈ boxUnits, (∀ x ∈ u.map puzzle, x = '0' ∨ x ∈ digits) ∧
      ((u.map puzzle).filter (fun x => x != '0')).Nodup) :
    ∀ (L : List (Nat × Nat)) (c : Config),
      (∀ ti ∈ L, boxKeys ti.2 ∈ boxUnits) →
      L.Pairwise (fun a b2 => boxKeys a.2 ≠ boxKeys b2.2) →
      (∀ ti ∈ L, ∀ x ∈ boxKeys ti.2, c x = puzzle x) →
      (∀ ti ∈ L, ((boxKeys ti.2).map (L.foldl (fillStep rnd) c)).Perm digits) ∧
      (∀ x, (∀ ti ∈ L, x ∉ boxKeys ti.2) → L.foldl (fillStep rnd) c x = c x) := by
  intro L
  induction L with
  | nil =>
    intro c _ _ _
    exact ⟨fun ti hti => absurd hti (List.not_mem_nil ti), fun x _ => rfl⟩
  | cons ti L2 ihL =>
    intro c hmem hpw hvals
    rw [List.pairwise_cons] at hpw
    have hkb : boxKeys ti.2 ∈ boxUnits := hmem ti (List.mem_cons_self _ _)
    have hknd : (boxKeys ti.2).Nodup := boxUnits_nodup hkb
    have hklen : (boxKeys ti.2).length = 9 := boxUnits_length hkb
    have hcmap : (boxKeys ti.2).map c = (boxKeys ti.2).map puzzle :=
      List.map_congr_left (fun x hx => hvals ti (List.mem_cons_self _ _) x hx)
    have hfperm : (fill_randomly ((boxKeys ti.2).map c) (rnd ti.1)).Perm digits := by
      rw [hcmap]
      exact fill_randomly_perm _ _ (by rw [List.length_map]; exact hklen) (hrnd ti.1)
        (hp _ hkb).1 (hp _ hkb).2
    have hflen : (fill_randomly ((boxKeys ti.2).map c) (rnd ti.1)).length = 9 := by
      unfold fill_randomly
      rw [fillLoop_length, List.length_map]
      exact hklen
    -- the step writes the refilled box
    have hstep_on : (boxKeys ti.2).map (fillStep rnd c ti) =
        fill_randomly ((boxKeys ti.2).map c) (rnd ti.1) := by
      unfold fillStep
      exact writeKeys_map c hknd (by rw [hflen]; exact hklen)
    have hstep_off : ∀ x, x ∉ boxKeys ti.2 → fillStep rnd c ti x = c x := by
      intro x hx
      unfold fillStep
      exact writeKeys_not_mem _ _ c x hx
    -- cells of later boxes are untouched by this step
    have hvals2 : ∀ ti2 ∈ L2, ∀ x ∈ boxKeys ti2.2, fillStep rnd c ti x = puzzle x := by
      intro ti2 hti2 x hx
      have hne : boxKeys ti.2 ≠ boxKeys ti2.2 := hpw.1 ti2 hti2
      have hxnot : x ∉ boxKeys ti.2 :=
        boxUnits_disjoint _ (hmem ti2 (List.mem_cons_of_mem ti hti2)) _ hkb
          (fun hh => hne hh.symm) x hx
      rw [hstep_off x hxnot]
      exact hvals ti2 (List.mem_cons_of_mem ti hti2) x hx
    obtain ⟨ih1, ih2⟩ := ihL (fillStep rnd c ti)
      (fun ti2 hti2 => hmem ti2 (List.mem_cons_of_mem ti hti2)) hpw.2 hvals2
    rw [List.foldl_cons]
    constructor
    · intro ti2 hti2
      rcases List.mem_cons.mp hti2 with rfl | hti3
      · -- the box filled by this very step stays untouched by the remaining steps
        have hud : ∀ x ∈ boxKeys ti2.2, ∀ ti3 ∈ L2, x ∉ boxKeys ti3.2 := by
          intro x hx ti3 hti3
          have hne : boxKeys ti2.2 ≠ boxKeys ti3.2 := hpw.1 ti3 hti3
          exact boxUnits_disjoint _ hkb _
            (hmem ti3 (List.mem_cons_of_mem ti2 hti3)) hne x hx
        have : (boxKeys ti2.2).map (L2.foldl (fillStep rnd) (fillStep rnd c ti2)) =
            (boxKeys ti2.2).map (fillStep rnd c ti2) :=
          List.map_congr_left (fun x hx => ih2 x (hud x hx))
        rw [this, hstep_on]
        exact hfperm
      · exact ih1 ti2 hti3
    · intro x hx
      rw [ih2 x (fun ti3 hti3 => hx ti3 (List.mem_cons_of_mem ti hti3))]
      exact hstep_off x (fun hh => hx ti (List.mem_cons_self _ _) hh)

/-- The initial `fill` of a `'0'`-marked, per-box duplicate-free puzzle
satisfies the box invariant. -/
theorem fill_boxesOk (puzzle : Config) (rnd : Nat → List Char)
    (hrnd : ∀ k, (rnd k).Perm digits)
    (hp : ∀ u ∈ boxUnits, (∀ x ∈ u.map puzzle, x = '0' ∨ x ∈ digits) ∧
      ((u.map puzzle).filter (fun x => x != '0')).Nodup) :
    boxesOk (fill puzzle boxesList rnd) = true := by
  unfold boxesOk
  rw [List.all_eq_true]
  intro u hu
  obtain ⟨ti, hti, hbk⟩ := fillIdx_boxes_cover u hu
  have hspec := (fillFold_spec puzzle rnd hrnd hp fillIdx.enum puzzle
    fillIdx_boxes_mem fillIdx_boxes_pairwise (fun _ _ _ _ => rfl)).1 ti hti
  rw [hbk] at hspec
  rw [fill_eq_foldl]
  unfold boxPerm
  exact decide_eq_true hspec

/-- The transposition of the two cell names `p` and `q`. -/
def swapFn (p q t : String) : String := if t = p then q else if t = q then p else t

theorem swapFn_invol (p q t : String) : swapFn p q (swapFn p q t) = t := by
  unfold swapFn
  by_cases htp : t = p
  · rw [if_pos htp]
    by_cases hqp : q = p
    · rw [if_pos hqp, hqp]
      exact htp.symm
    · rw [if_neg hqp, if_pos rfl]
      exact htp.symm
  · rw [if_neg htp]
    by_cases htq : t = q
    · rw [if_pos htq, if_pos rfl]
      exact htq.symm
    · rw [if_neg htq, if_neg htp, if_neg htq]

/-- A box-local swap preserves the multiset of every unit's values:
the selected box permutes within itself, the others are untouched. -/
theorem map_swap_perm (cfg r : Config) (u : List String) (p q : String)
    (hnd : u.Nodup) (hrp : r p = cfg q) (hrq : r q = cfg p)
    (hother : ∀ t, t ≠ p → t ≠ q → r t = cfg t)
    (hpu : p ∈ u) (hqu : q ∈ u) :
    (u.map r).Perm (u.map cfg) := by
  by_cases hpq : p = q
  · subst hpq
    have : u.map r = u.map cfg := by
      apply List.map_congr_left
      intro t _
      by_cases htp : t = p
      · subst htp; exact hrp
      · exact hother t htp htp
    rw [this]
  · have hr : ∀ t, r t = cfg (swapFn p q t) := by
      intro t
      unfold swapFn
      by_cases htp : t = p
      · subst htp
        rw [if_pos rfl]
        exact hrp
      · rw [if_neg htp]
        by_cases htq : t = q
        · subst htq
          rw [if_pos rfl]
          exact hrq
        · rw [if_neg htq]
          exact hother t htp htq
    have hmap : u.map r = (u.map (swapFn p q)).map cfg := by
      rw [List.map_map]
      exact List.map_congr_left (fun t _ => hr t)
    rw [hmap]
    apply List.Perm.map cfg
    -- the transposition is a permutation of the (duplicate-free) unit
    have hinj : Function.Injective (swapFn p q) :=
      Function.Involutive.injective (fun t => swapFn_invol p q t)
    apply List.perm_iff_count.mpr
    intro x
    calc (u.map (swapFn p q)).count x
        = (u.map (swapFn p q)).count (swapFn p q (swapFn p q x)) := by
          rw [swapFn_invol]
      _ = u.count (swapFn p q x) := List.count_map_of_injective u _ hinj _
      _ = u.count x := by
          unfold swapFn
          by_cases hxp : x = p
          · subst hxp
            rw [if_pos rfl]
            rw [List.count_eq_one_of_mem hnd hqu, List.count_eq_one_of_mem hnd hpu]
          · rw [if_neg hxp]
            by_cases hxq : x = q
            · subst hxq
              rw [if_pos rfl]
              rw [List.count_eq_one_of_mem hnd hpu, List.count_eq_one_of_mem hnd hqu]
            · rw [if_neg hxq]

/-- `find_best_neighbor` preserves the box invariant. -/
theorem find_best_neighbor_boxesOk (cfg : Config) (idx : Nat) (hidx : idx < 81)
    (hok : boxesOk cfg = true) :
    boxesOk (find_best_neighbor cfg boxesList idx) = true := by
  obtain ⟨p, q, hpk, hqk, hrp, hrq, hoth⟩ := neighbor_swap_shape cfg idx hidx
  have hkb : boxKeys idx ∈ boxUnits := boxKeys_mem_boxUnits idx hidx
  unfold boxesOk
  rw [List.all_eq_true]
  intro u hu
  have hcfgu : ((u.map cfg).Perm digits) := by
    have := List.all_eq_true.mp hok u hu
    exact of_decide_eq_true this
  unfold boxPerm
  apply decide_eq_true
  by_cases huk : u = boxKeys idx
  · subst huk
    exact (map_swap_perm cfg (find_best_neighbor cfg boxesList idx) (boxKeys idx) p q
      (boxUnits_nodup hu) hrp hrq hoth hpk hqk).trans hcfgu
  · have hmap : u.map (find_best_neighbor cfg boxesList idx) = u.map cfg := by
      apply List.map_congr_left
      intro t htu
      apply hoth t
      · intro hh
        subst hh
        exact boxUnits_disjoint _ hu _ hkb huk t htu hpk
      · intro hh
        subst hh
        exact boxUnits_disjoint _ hu _ hkb huk t htu hqk
    rw [hmap]
    exact hcfgu

set_option maxRecDepth 100000 in
set_option maxHeartbeats 1000000 in
/-- Witness for C10 at the everywhere-`'5'` configuration and box index 0. -/
theorem c10_witness :
    (0 : Nat) < 81 ∧
    ∃ p q, p ∈ boxKeys 0 ∧ q ∈ boxKeys 0 ∧
      find_best_neighbor (fun _ => '5') boxesList 0 p = (fun _ => '5' : Config) q ∧
      find_best_neighbor (fun _ => '5') boxesList 0 q = (fun _ => '5' : Config) p ∧
      ∀ t, t ≠ p → t ≠ q → find_best_neighbor (fun _ => '5') boxesList 0 t =
        (fun _ => '5' : Config) t :=
  ⟨by decide, c10_neighbor_is_box_swap (fun _ => '5') 0 (by decide)⟩

theorem hcLoop_succ (idxs : Nat → Nat) (step k : Nat) (cfg : Config) :
    hcLoop idxs step (k + 1) cfg =
      if count_general_conflicts cfg = 0 then cfg
      else
        if count_general_conflicts (find_best_neighbor cfg boxesList (idxs step)) <
            count_general_conflicts cfg then
          hcLoop idxs (step + 1) k (find_best_neighbor cfg boxesList (idxs step))
        else cfg := rfl

/-- Hill climbing only ever replaces the configuration by a
`find_best_neighbor` of it, so the box invariant is preserved. -/
theorem hcLoop_boxesOk (idxs : Nat → Nat) (hidxs : ∀ k2, idxs k2 < 81) (k : Nat) :
    ∀ (step : Nat) (cfg : Config), boxesOk cfg = true →
      boxesOk (hcLoop idxs step k cfg) = true := by
  induction k with
  | zero =>
    intro step cfg h
    exact h
  | succ k ih =>
    intro step cfg h
    rw [hcLoop_succ]
    split
    · exact h
    · split
      · exact ih (step + 1) _ (find_best_neighbor_boxesOk cfg (idxs step) (hidxs step) h)
      · exact h

theorem saLoop_succ (idxs : Nat → Nat) (draws : Nat → Bool) (alpha : ℚ)
    (k step : Nat) (temperature : ℚ) (cur best : Config) :
    saLoop idxs draws alpha (k + 1) step temperature cur best =
      if alpha * temperature = 0 then best
      else
        if ((count_general_conflicts (find_best_neighbor cur boxesList (idxs step)) : Int) -
            (count_general_conflicts cur : Int) < 0) || draws step then
          if count_general_conflicts (find_best_neighbor cur boxesList (idxs step)) = 0 then
            find_best_neighbor cur boxesList (idxs step)
          else
            saLoop idxs draws alpha k (step + 1) (alpha * temperature)
              (find_best_neighbor cur boxesList (idxs step))
              (find_best_neighbor cur boxesList (idxs step))
        else
          if count_general_conflicts cur = 0 then best
          else saLoop idxs draws alpha k (step + 1) (alpha * temperature) cur best := rfl

/-- Simulated annealing keeps both the current and the best configuration
inside the box invariant: every update goes through `find_best_neighbor`. -/
theorem saLoop_boxesOk (idxs : Nat → Nat) (draws : Nat → Bool) (alpha : ℚ)
    (hidxs : ∀ k2, idxs k2 < 81) (k : Nat) :
    ∀ (step : Nat) (temperature : ℚ) (cur best : Config),
      boxesOk cur = true → boxesOk best = true →
      boxesOk (saLoop idxs draws alpha k step temperature cur best) = true := by
  induction k with
  | zero =>
    intro step temperature cur best _ hb
    exact hb
  | succ k ih =>
    intro step temperature cur best hc hb
    have hn : boxesOk (find_best_neighbor cur boxesList (idxs step)) = true :=
      find_best_neighbor_boxesOk cur (idxs step) (hidxs step) hc
    rw [saLoop_succ]
    split
    · exact hb
    · split
      · split
        · exact hn
        · exact ih (step + 1) _ _ _ hn hn
      · split
        · exact hb
        · exact ih (step + 1) _ _ _ hc hb

/-- C3 (amended): for every puzzle whose empty cells are marked `'0'` and
whose pre-filled cells are digits without duplicates inside a box, every
configuration the local-search engines produce respects the box invariant:
the initial `fill`, every `find_best_neighbor` of a configuration already
satisfying it, and the configurations returned by `apply_hill_climbing`
and `apply_hill_climbing_annealing` all have each 3×3 box holding a
permutation of the digits 1-9.  (As stated the claim is false: cells
marked `'.'` are NOT refilled by `fill_randomly`, which only treats `'0'`
as empty — see the counterexample.) -/
theorem c3_box_invariant (puzzle : Config) (rnd : Nat → List Char)
    (idxs : Nat → Nat) (draws : Nat → Bool) (initial_temperature alpha : ℚ)
    (hrnd : ∀ k, (rnd k).Perm digits)
    (hidxs : ∀ k, idxs k < 81)
    (hp : ∀ u ∈ boxUnits, (∀ x ∈ u.map puzzle, x = '0' ∨ x ∈ digits) ∧
      ((u.map puzzle).filter (fun x => x != '0')).Nodup) :
    boxesOk (fill puzzle boxesList rnd) = true ∧
    (∀ (cfg : Config) (idx : Nat), idx < 81 → boxesOk cfg = true →
      boxesOk (find_best_neighbor cfg boxesList idx) = true) ∧
    boxesOk (apply_hill_climbing puzzle rnd idxs) = true ∧
    boxesOk (apply_hill_climbing_annealing puzzle rnd idxs draws
      initial_temperature alpha) = true := by
  have hfill := fill_boxesOk puzzle rnd hrnd hp
  refine ⟨hfill, fun cfg idx hidx hok => find_best_neighbor_boxesOk cfg idx hidx hok, ?_, ?_⟩
  · exact hcLoop_boxesOk idxs hidxs 150 0 _ hfill
  · exact saLoop_boxesOk idxs draws alpha hidxs 500 1 initial_temperature _ _ hfill hfill

set_option maxRecDepth 1000000 in
set_option maxHeartbeats 2000000 in
/-- Counterexample to C3 as stated: on the all-`'.'` puzzle (empty cells
marked `'.'`, a marking the claim admits), the initial `fill` leaves every
cell at `'.'` because `fill_randomly` only refills `'0'` cells, so no box
is a permutation of the digits. -/
theorem c3_counterexample :
    boxesOk (fill (init_values (List.replicate 81 '.')) boxesList
      (fun _ => digits)) = false := by decide

set_option maxRecDepth 1000000 in
set_option maxHeartbeats 2000000 in
/-- Witness for C3 on the all-`'0'` puzzle with identity shuffles, box
index 0, all-reject draws, T = 1.15 and alpha = 0.99. -/
theorem c3_witness :
    (∀ k, ((fun _ : Nat => digits) k).Perm digits) ∧
    (∀ k, (fun _ : Nat => 0) k < 81) ∧
    (∀ u ∈ boxUnits,
      (∀ x ∈ u.map (init_values (List.replicate 81 '0')), x = '0' ∨ x ∈ digits) ∧
      ((u.map (init_values (List.replicate 81 '0'))).filter (fun x => x != '0')).Nodup) ∧
    boxesOk (fill (init_values (List.replicate 81 '0')) boxesList
      (fun _ => digits)) = true :=
  ⟨fun _ => List.Perm.refl digits, fun _ => of_decide_eq_true rfl, by decide,
    (c3_box_invariant (init_values (List.replicate 81 '0')) (fun _ => digits)
      (fun _ => 0) (fun _ => false) (23 / 20) (99 / 100)
      (fun _ => List.Perm.refl digits) (fun _ => of_decide_eq_true rfl) (by decide)).1⟩

end Sudoku
